import Mathlib

/-!
Verification development for the memorybench RAG core：shallow embedding of
the chunker, extraction parser, entity graph, pg-store search scoring,
reranker driver and provider orchestration, with theorems settling the
frozen specification claims.

Strings are modelled as `List Char` (JS UTF-16 code points; the ASCII parts
of `trim`, `toLowerCase` and `\s`/`\w` classes, which are the only ones the
repository's data exercises, are modelled exactly).
-/

/-- Coerce a string literal to the `List Char` representation used throughout. -/
def cl (s : String) : List Char := s.data

/-- Newline character (used for chunker break-point search). -/
def nlc : Char := Char.ofNat 10

/-- Space character. -/
def spc : Char := Char.ofNat 32

/-- Apostrophe character. -/
def apoc : Char := Char.ofNat 39

/-- JS whitespace class (ASCII part): space, tab, LF, VT, FF, CR. -/
def wsChar (c : Char) : Bool :=
  c == spc || c == Char.ofNat 9 || c == nlc || c == Char.ofNat 11 ||
  c == Char.ofNat 12 || c == Char.ofNat 13

/-- Model of `String.prototype.trim`: drop whitespace from both ends. -/
def jsTrim (s : List Char) : List Char :=
  ((s.dropWhile wsChar).reverse.dropWhile wsChar).reverse

/-- Does pattern `pat` occur in `s` starting exactly at index `i`? -/
def patAt (s pat : List Char) (i : Nat) : Bool :=
  (s.drop i).take pat.length == pat

/-- Forward scan with accumulator: `best` is the latest match position seen
so far; the result is the greatest position `≤ i0` at which `pat` starts,
else the initial `best`. -/
def lastIdxAux (pat : List Char) (i0 : Nat) : List Char → Nat → Int → Int
  | [], _, best => best
  | c :: rest, i, best =>
    lastIdxAux pat i0 rest (i + 1)
      (if i ≤ i0 && (c :: rest).take pat.length == pat then (i : Int) else best)

/-- Model of `text.lastIndexOf(pat, fromIdx)` (`-1` when absent): the
greatest start index `≤ fromIdx` at which `pat` occurs in `s`. -/
def jsLastIndexOf (s pat : List Char) (fromIdx : Nat) : Int :=
  lastIdxAux pat fromIdx s 0 (-1)

/-- Break-point search of `chunkText` (src/unnamed/part_002 lines 47-56):
last `". "` at or before the window end subject to the halfway minimum,
else last newline likewise, else last space (no halfway minimum), else the
window end.  `chunkSize * 0.5` is exact for the even default 1600, so the
float comparison is modelled as `2*bp < 2*start + cs`. -/
def pickBreak (text : List Char) (cs start e : Nat) : Int :=
  let b1 : Int := jsLastIndexOf text (cl (r". ")) e
  let b2 : Int :=
    if b1 ≤ (start : Int) || 2 * b1 < 2 * (start : Int) + (cs : Int) then
      jsLastIndexOf text [nlc] e
    else b1
  let b3 : Int :=
    if b2 ≤ (start : Int) || 2 * b2 < 2 * (start : Int) + (cs : Int) then
      jsLastIndexOf text [spc] e
    else b2
  if b3 ≤ (start : Int) then (e : Int) else b3

/-- One iteration of the `chunkText` while-loop: either the tail chunk
(`end >= text.length`) or an emitted chunk plus the next `start`. -/
inductive ChunkStep where
  | last (c : List Char)
  | emit (c : List Char) (next : Nat)
deriving DecidableEq

/-- Body of the `chunkText` loop at position `start`. -/
def chunkStep (text : List Char) (cs ov start : Nat) : ChunkStep :=
  let e := start + cs
  if text.length ≤ e then ChunkStep.last (jsTrim (text.drop start))
  else
    let bp := pickBreak text cs start e
    let bpn : Nat := bp.toNat
    let c := jsTrim ((text.drop start).take (bpn + 1 - start))
    let ns : Int := bp + 1 - (ov : Int)
    ChunkStep.emit c ns.toNat

/-- The `chunkText` while-loop with explicit fuel; `none` means the fuel ran
out before the loop exited (the source loop has no other exit). -/
def chunkLoop (text : List Char) (cs ov : Nat) : Nat → Nat → Option (List (List Char))
  | 0, _ => none
  | fuel + 1, start =>
    if start < text.length then
      match chunkStep text cs ov start with
      | ChunkStep.last c => some [c]
      | ChunkStep.emit c ns => (chunkLoop text cs ov fuel ns).map (fun l => c :: l)
    else some []

/-- Model of `chunkText` (src/unnamed/part_002 lines 31-65).  Texts of length
`≤ chunkSize` return `[text.trim()]` unfiltered; longer texts run the loop
and drop empty chunks. -/
def chunkTextF (fuel : Nat) (text : List Char) (cs ov : Nat) : Option (List (List Char)) :=
  if text.length ≤ cs then some [jsTrim text]
  else (chunkLoop text cs ov fuel 0).map (fun l => l.filter (fun c => c.length ≠ 0))

example : chunkTextF 1 (cl (r"")) 1600 320 = some [[]] := by decide
example : chunkTextF 1 (cl (r"  hi there ")) 1600 320 = some [cl (r"hi there")] := by decide

/-- Trimming never lengthens a string. -/
theorem jsTrim_length_le (s : List Char) : (jsTrim s).length ≤ s.length := by
  unfold jsTrim
  calc ((s.dropWhile wsChar).reverse.dropWhile wsChar).reverse.length
      = ((s.dropWhile wsChar).reverse.dropWhile wsChar).length := List.length_reverse _
    _ ≤ (s.dropWhile wsChar).reverse.length := (List.dropWhile_sublist _).length_le
    _ = (s.dropWhile wsChar).length := List.length_reverse _
    _ ≤ s.length := (List.dropWhile_sublist _).length_le

/-- A string with no whitespace characters is fixed by trimming. -/
theorem jsTrim_eq_self (s : List Char) (h : ∀ c ∈ s, wsChar c = false) : jsTrim s = s := by
  unfold jsTrim
  have h1 : s.dropWhile wsChar = s := by
    apply List.dropWhile_eq_self_iff.mpr
    intro hl
    have hm : s[0] ∈ s := List.getElem_mem hl
    simp [h _ hm]
  rw [h1]
  have h2 : s.reverse.dropWhile wsChar = s.reverse := by
    apply List.dropWhile_eq_self_iff.mpr
    intro hl
    have hlen : 0 < s.length := by simpa using hl
    have hm : s[s.length - 1] ∈ s := List.getElem_mem (by omega)
    simp [h _ hm]
  rw [h2, List.reverse_reverse]

/-- The scan never returns a value above `i0` when started below it. -/
theorem lastIdxAux_le (pat : List Char) (i0 : Nat) (l : List Char) :
    ∀ (i : Nat) (best : Int), best ≤ (i0 : Int) → lastIdxAux pat i0 l i best ≤ (i0 : Int) := by
  induction l with
  | nil => intro i best h; exact h
  | cons c rest ih =>
    intro i best h
    rw [lastIdxAux]
    apply ih
    split
    · rename_i hcond
      simp only [Bool.and_eq_true, decide_eq_true_eq] at hcond
      exact_mod_cast hcond.1
    · exact h

/-- `lastIndexOf` never exceeds its `fromIdx` argument. -/
theorem jsLastIndexOf_le (s pat : List Char) (i0 : Nat) :
    jsLastIndexOf s pat i0 ≤ (i0 : Int) :=
  lastIdxAux_le pat i0 s 0 (-1) (by omega)

/-- If the first pattern character never occurs, the scan keeps its accumulator. -/
theorem lastIdxAux_not_mem (p : Char) (ps : List Char) (i0 : Nat) (l : List Char) :
    p ∉ l → ∀ (i : Nat) (best : Int), lastIdxAux (p :: ps) i0 l i best = best := by
  induction l with
  | nil => intro _ i best; rfl
  | cons c rest ih =>
    intro h i best
    have hc : (c == p) = false := by
      rw [beq_eq_false_iff_ne]
      intro he
      exact h (by simp [he])
    rw [lastIdxAux]
    have hcheck : ((c :: rest).take (p :: ps).length == p :: ps) = false := by
      simp only [List.length_cons, List.take_succ_cons, List.cons_beq_cons, hc, Bool.false_and]
    rw [hcheck]
    simp only [Bool.and_false, Bool.false_eq_true, if_false]
    exact ih (fun hm => h (List.mem_cons_of_mem _ hm)) (i + 1) best

/-- `lastIndexOf` is `-1` when the first pattern character is absent. -/
theorem jsLastIndexOf_not_mem (s : List Char) (p : Char) (ps : List Char) (i0 : Nat)
    (h : p ∉ s) : jsLastIndexOf s (p :: ps) i0 = -1 :=
  lastIdxAux_not_mem p ps i0 s h 0 (-1)

/-- The chosen break point never exceeds the window end. -/
theorem pickBreak_le (text : List Char) (cs start e : Nat) :
    pickBreak text cs start e ≤ (e : Int) := by
  unfold pickBreak
  dsimp only
  split_ifs <;> first
    | exact le_refl _
    | exact jsLastIndexOf_le _ _ _

/-- A tail chunk (`end >= text.length`) has length at most `cs`. -/
theorem chunkStep_last_length (text : List Char) (cs ov start : Nat) (c : List Char)
    (h : chunkStep text cs ov start = ChunkStep.last c) : c.length ≤ cs := by
  unfold chunkStep at h
  by_cases hc : text.length ≤ start + cs
  · rw [if_pos hc] at h
    injection h with h
    subst h
    calc (jsTrim (text.drop start)).length
        ≤ (text.drop start).length := jsTrim_length_le _
      _ = text.length - start := List.length_drop _ _
      _ ≤ cs := by omega
  · rw [if_neg hc] at h
    exact absurd h (by simp)

/-- An emitted chunk has length at most `cs + 1` (the break point is at most
the window end, and `slice(start, bp + 1)` takes `bp + 1 - start` characters). -/
theorem chunkStep_emit_length (text : List Char) (cs ov start : Nat) (c : List Char) (ns : Nat)
    (h : chunkStep text cs ov start = ChunkStep.emit c ns) : c.length ≤ cs + 1 := by
  unfold chunkStep at h
  by_cases hc : text.length ≤ start + cs
  · rw [if_pos hc] at h
    exact absurd h (by simp)
  · rw [if_neg hc] at h
    injection h with h _
    subst h
    have hbp : (pickBreak text cs start (start + cs)).toNat ≤ start + cs :=
      Int.toNat_le.mpr (pickBreak_le _ _ _ _)
    calc (jsTrim ((text.drop start).take ((pickBreak text cs start (start + cs)).toNat + 1 - start))).length
        ≤ ((text.drop start).take ((pickBreak text cs start (start + cs)).toNat + 1 - start)).length :=
          jsTrim_length_le _
      _ ≤ (pickBreak text cs start (start + cs)).toNat + 1 - start := by
          rw [List.length_take]; omega
      _ ≤ cs + 1 := by omega

/-- Every chunk produced by the loop has length at most `cs + 1`. -/
theorem chunkLoop_length_le (text : List Char) (cs ov : Nat) :
    ∀ (fuel start : Nat) (l : List (List Char)), chunkLoop text cs ov fuel start = some l →
      ∀ c ∈ l, c.length ≤ cs + 1 := by
  intro fuel
  induction fuel with
  | zero => intro start l h; simp [chunkLoop] at h
  | succ f ih =>
    intro start l h
    rw [chunkLoop] at h
    by_cases hs : start < text.length
    · rw [if_pos hs] at h
      cases hstep : chunkStep text cs ov start with
      | last c0 =>
        rw [hstep] at h
        injection h with h
        subst h
        intro c hc
        rw [List.mem_singleton] at hc
        subst hc
        exact (chunkStep_last_length text cs ov start _ hstep).trans (by omega)
      | emit c0 ns =>
        rw [hstep] at h
        rcases Option.map_eq_some'.mp h with ⟨l0, hl0, rfl⟩
        intro c hc
        rcases List.mem_cons.mp hc with rfl | hmem
        · exact chunkStep_emit_length text cs ov start c ns hstep
        · exact ih ns l0 hl0 c hmem
    · rw [if_neg hs] at h
      injection h with h
      subst h
      intro c hc
      simp at hc

/-- C3 (corrected): every chunk returned by `chunkText` with the default
parameters has length at most `CHUNK_SIZE + 1 = 1601` (the slice runs to
`breakPoint + 1`, so a break at the window end yields 1601 characters), and a
returned chunk is empty only on the single-chunk path for input whose trimmed
form is empty (that path returns `[text.trim()]` without filtering). -/
theorem c3_chunkText_bounds (fuel : Nat) (text : List Char) (out : List (List Char))
    (h : chunkTextF fuel text 1600 320 = some out) :
    ∀ c ∈ out, c.length ≤ 1601 ∧ (c = [] → text.length ≤ 1600 ∧ jsTrim text = []) := by
  intro c hc
  unfold chunkTextF at h
  by_cases ht : text.length ≤ 1600
  · rw [if_pos ht] at h
    injection h with h
    subst h
    rw [List.mem_singleton] at hc
    subst hc
    refine ⟨(jsTrim_length_le text).trans (by omega), fun hemp => ⟨ht, hemp⟩⟩
  · rw [if_neg ht] at h
    rcases Option.map_eq_some'.mp h with ⟨l0, hl0, rfl⟩
    rcases List.mem_filter.mp hc with ⟨hmem, hlen⟩
    refine ⟨chunkLoop_length_le text 1600 320 fuel 0 l0 hl0 c hmem, fun hemp => ?_⟩
    subst hemp
    simp at hlen

/-- Witness for C3: the theorem applied to the two-word input `hi there`. -/
theorem c3_chunkText_bounds_witness :
    (cl (r"hi there")).length ≤ 1601 ∧
      ((cl (r"hi there")) = [] → (cl (r"  hi there ")).length ≤ 1600 ∧ jsTrim (cl (r"  hi there ")) = []) :=
  c3_chunkText_bounds 1 (cl (r"  hi there ")) [cl (r"hi there")] (by decide)
    (cl (r"hi there")) (by decide)

/-- The letter `a` (used to build concrete chunker inputs). -/
def achr : Char := Char.ofNat 97

/-- 1601 copies of `a`: one character longer than `CHUNK_SIZE`, with no
sentence break, newline or space anywhere. -/
def aas : List Char := List.replicate 1601 achr

/-- No character of `aas` is whitespace. -/
theorem aas_no_ws : ∀ c ∈ aas, wsChar c = false := by
  intro c hc
  rw [aas, List.mem_replicate] at hc
  rw [hc.2]
  decide

/-- A character distinct from `a` is not in `aas`. -/
theorem not_mem_aas (c : Char) (h : c ≠ achr) : c ∉ aas := by
  rw [aas, List.mem_replicate]
  intro hc
  exact h hc.2

/-- All three break-point searches fail on `aas`, so the hard cut at the
window end is used. -/
theorem pickBreak_aas : pickBreak aas 1600 0 1600 = 1600 := by
  have hpat : cl (r". ") = Char.ofNat 46 :: [spc] := by decide
  have hb1 : jsLastIndexOf aas (cl (r". ")) 1600 = -1 := by
    rw [hpat]
    exact jsLastIndexOf_not_mem _ _ _ _ (not_mem_aas _ (by decide))
  have hb2 : jsLastIndexOf aas [nlc] 1600 = -1 :=
    jsLastIndexOf_not_mem _ _ _ _ (not_mem_aas _ (by decide))
  have hb3 : jsLastIndexOf aas [spc] 1600 = -1 :=
    jsLastIndexOf_not_mem _ _ _ _ (not_mem_aas _ (by decide))
  unfold pickBreak
  rw [hb1, hb2, hb3]
  norm_num

/-- First loop iteration on `aas`: the emitted chunk is all 1601 characters. -/
theorem chunkStep_aas_0 : chunkStep aas 1600 320 0 = ChunkStep.emit aas 1281 := by
  have hlen : aas.length = 1601 := by rw [aas, List.length_replicate]
  unfold chunkStep
  rw [if_neg (by rw [hlen]; omega)]
  dsimp only
  rw [pickBreak_aas]
  rw [List.drop_zero]
  rw [List.take_of_length_le (by rw [hlen]; decide)]
  rw [jsTrim_eq_self aas aas_no_ws]
  congr 1

/-- Second loop iteration on `aas`: the remaining 320 characters fit. -/
theorem chunkStep_aas_1281 : chunkStep aas 1600 320 1281 = ChunkStep.last (List.replicate 320 achr) := by
  have hlen : aas.length = 1601 := by rw [aas, List.length_replicate]
  unfold chunkStep
  rw [if_pos (by rw [hlen]; omega)]
  rw [aas, List.drop_replicate]
  norm_num
  apply jsTrim_eq_self
  intro c hc
  rw [List.mem_replicate] at hc
  rw [hc.2]
  decide

/-- Unfolding equation for one loop iteration (stated for rewriting at
numeric fuel values). -/
theorem chunkLoop_succ (text : List Char) (cs ov fuel start : Nat) :
    chunkLoop text cs ov (fuel + 1) start =
      if start < text.length then
        match chunkStep text cs ov start with
        | ChunkStep.last c => some [c]
        | ChunkStep.emit c ns => (chunkLoop text cs ov fuel ns).map (fun l => c :: l)
      else some [] := rfl

set_option maxRecDepth 4000 in
/-- C3 counterexample: the claim fails twice on the code.  For empty input
`chunkText` returns `[""]` — an empty chunk — because the `text.length <=
chunkSize` path skips the empty-chunk filter; and for 1601 `a`s, the first
chunk is the whole 1601-character text (the hard cut slices to
`breakPoint + 1 = end + 1`), exceeding `CHUNK_SIZE = 1600`. -/
theorem c3_counterexample :
    chunkTextF 1 [] 1600 320 = some [[]] ∧
      chunkTextF 2 aas 1600 320 = some [aas, List.replicate 320 achr] ∧
      aas.length = 1601 := by
  refine ⟨by decide, ?_, by rw [aas, List.length_replicate]⟩
  have hlen : aas.length = 1601 := by rw [aas, List.length_replicate]
  have hloop1 : chunkLoop aas 1600 320 1 1281 = some [List.replicate 320 achr] := by
    rw [show (1 : Nat) = 0 + 1 from rfl, chunkLoop_succ, if_pos (by rw [hlen]; omega),
      chunkStep_aas_1281]
  have hloop2 : chunkLoop aas 1600 320 2 0 = some [aas, List.replicate 320 achr] := by
    rw [show (2 : Nat) = 1 + 1 from rfl, chunkLoop_succ, if_pos (by rw [hlen]; omega),
      chunkStep_aas_0]
    dsimp only
    rw [hloop1]
    rfl
  unfold chunkTextF
  rw [if_neg (by rw [hlen]; omega), hloop2]
  simp only [Option.map_some']
  refine congrArg _ ?_
  rw [List.filter_cons, List.filter_cons, List.filter_nil]
  norm_num [hlen, List.length_replicate]

/-- The adversarial chunker input `a b` followed by 2000 `c`s: its only
space sits at index 1, far before `start + overlap`. -/
def badT : List Char := Char.ofNat 97 :: spc :: Char.ofNat 98 :: List.replicate 2000 (Char.ofNat 99)

/-- Length of the adversarial input. -/
theorem badT_len : badT.length = 2003 := by
  rw [badT, List.length_cons, List.length_cons, List.length_cons, List.length_replicate]

/-- A character distinct from all four letters of `badT` is not in it. -/
theorem not_mem_badT (c : Char) (h97 : c ≠ Char.ofNat 97) (hsp : c ≠ spc)
    (h98 : c ≠ Char.ofNat 98) (h99 : c ≠ Char.ofNat 99) : c ∉ badT := by
  rw [badT]
  intro hm
  rcases List.mem_cons.mp hm with h | hm
  · exact h97 h
  rcases List.mem_cons.mp hm with h | hm
  · exact hsp h
  rcases List.mem_cons.mp hm with h | hm
  · exact h98 h
  · exact h99 (List.mem_replicate.mp hm).2

/-- The space search on `badT` finds only the space at index 1. -/
theorem jsLastIndexOf_badT_spc : jsLastIndexOf badT [spc] 1600 = 1 := by
  have htail : ∀ best : Int,
      lastIdxAux [spc] 1600 (List.replicate 2000 (Char.ofNat 99)) 3 best = best := by
    intro best
    refine lastIdxAux_not_mem spc [] 1600 _ ?_ 3 best
    rw [List.mem_replicate]
    intro hc
    exact absurd hc.2 (by decide)
  show lastIdxAux [spc] 1600 badT 0 (-1) = 1
  rw [badT, lastIdxAux, lastIdxAux, lastIdxAux, htail]
  decide

/-- Break-point selection on `badT` at `start = 0`: the sentence and newline
searches fail, the space search returns 1, and 1 > start, so the chosen
break point is 1 — before `start + overlap`. -/
theorem pickBreak_badT : pickBreak badT 1600 0 1600 = 1 := by
  have hpat : cl (r". ") = Char.ofNat 46 :: [spc] := by decide
  have hb1 : jsLastIndexOf badT (cl (r". ")) 1600 = -1 := by
    rw [hpat]
    exact jsLastIndexOf_not_mem _ _ _ _
      (not_mem_badT _ (by decide) (by decide) (by decide) (by decide))
  have hb2 : jsLastIndexOf badT [nlc] 1600 = -1 :=
    jsLastIndexOf_not_mem _ _ _ _
      (not_mem_badT _ (by decide) (by decide) (by decide) (by decide))
  unfold pickBreak
  rw [hb1, hb2, jsLastIndexOf_badT_spc]
  norm_num

/-- The loop body on `badT` at `start = 0` emits the chunk `a` and sets the
next start to `max 0 (1 + 1 - 320) = 0`: the state repeats exactly. -/
theorem chunkStep_badT : chunkStep badT 1600 320 0 = ChunkStep.emit (cl (r"a")) 0 := by
  unfold chunkStep
  rw [if_neg (by rw [badT_len]; omega)]
  dsimp only
  rw [pickBreak_badT, List.drop_zero]
  rw [badT]
  decide

/-- C10 (code_bug): `chunkText` does not terminate on `badT` with the default
parameters.  The space fallback has no halfway minimum, so `breakPoint = 1`,
and `start` is reset to `max 0 (breakPoint + 1 - overlap) = 0`: the loop
state repeats forever (emitting the chunk `a` each time).  In the fuel model
the loop exhausts any amount of fuel. -/
theorem c10_chunkText_nonterminating : ∀ fuel : Nat, chunkTextF fuel badT 1600 320 = none := by
  have hloop : ∀ fuel : Nat, chunkLoop badT 1600 320 fuel 0 = none := by
    intro fuel
    induction fuel with
    | zero => rfl
    | succ f ih =>
      rw [chunkLoop_succ, if_pos (by rw [badT_len]; omega), chunkStep_badT]
      dsimp only
      rw [ih]
      rfl
  intro fuel
  unfold chunkTextF
  rw [if_neg (by rw [badT_len]; omega), hloop]
  rfl

/-- The pipe character. -/
def barc : Char := Char.ofNat 124

/-- Model of `String.prototype.split(sep)` for a single-character separator:
always returns one more field than there are separators. -/
def splitOnChar (sep : Char) : List Char → List (List Char)
  | [] => [[]]
  | c :: rest =>
    if c == sep then [] :: splitOnChar sep rest
    else
      match splitOnChar sep rest with
      | [] => [[c]]
      | f :: r => (c :: f) :: r

/-- An entity line parsed from the `<entities>` section. -/
structure PEntity where
  name : List Char
  type : List Char
  summary : List Char
deriving DecidableEq

/-- A relationship line parsed from the `<relationships>` section. -/
structure PRel where
  source : List Char
  relation : List Char
  target : List Char
  date : Option (List Char)
deriving DecidableEq

/-- Body of the entity-line loop of `parseExtractionOutput`
(src/unnamed/part_004 lines 91-97): skip lines that are blank or lack `|`;
split on `|`, trim every field; accept when there are at least three fields
and the first three are non-empty; the summary rejoins the remaining fields
with `|`. -/
def parseEntityLine (line : List Char) : Option PEntity :=
  if jsTrim line == [] || !(line.any (fun c => c == barc)) then none
  else
    match (splitOnChar barc line).map jsTrim with
    | p0 :: p1 :: p2 :: rest =>
      if p0 ≠ [] ∧ p1 ≠ [] ∧ p2 ≠ [] then
        some { name := p0, type := p1, summary := List.intercalate [barc] (p2 :: rest) }
      else none
    | _ => none

/-- Body of the relationship-line loop of `parseExtractionOutput`
(src/unnamed/part_004 lines 103-115); the fourth field (empty or missing)
falls back to no date via `parts[3] || undefined`. -/
def parseRelLine (line : List Char) : Option PRel :=
  if jsTrim line == [] || !(line.any (fun c => c == barc)) then none
  else
    match (splitOnChar barc line).map jsTrim with
    | p0 :: p1 :: p2 :: rest =>
      if p0 ≠ [] ∧ p1 ≠ [] ∧ p2 ≠ [] then
        some { source := p0, relation := p1, target := p2,
               date := match rest with
                 | [] => none
                 | d :: _ => if d = [] then none else some d }
      else none
    | _ => none

/-- First start index at which `pat` occurs in the remaining suffix. -/
def firstIdxAux (pat : List Char) : List Char → Nat → Option Nat
  | [], _ => none
  | c :: rest, i =>
    if (c :: rest).take pat.length == pat then some i else firstIdxAux pat rest (i + 1)

/-- Model of the non-greedy section regex `<tag>([\s\S]*?)</tag>`: content
between the first opening tag and the first closing tag after it. -/
def sectionBetween (s tagO tagC : List Char) : Option (List Char) :=
  match firstIdxAux tagO s 0 with
  | none => none
  | some i =>
    let rest := s.drop (i + tagO.length)
    match firstIdxAux tagC rest 0 with
    | none => none
    | some j => some (rest.take j)

/-- The `<entities>` half of `parseExtractionOutput`: trim the section
content, split into lines, parse each line. -/
def parseExtractionEntities (raw : List Char) : List PEntity :=
  match sectionBetween raw (cl (r"<entities>")) (cl (r"</entities>")) with
  | none => []
  | some content => ((splitOnChar nlc (jsTrim content)).filterMap parseEntityLine)

/-- The `<relationships>` half of `parseExtractionOutput`. -/
def parseExtractionRels (raw : List Char) : List PRel :=
  match sectionBetween raw (cl (r"<relationships>")) (cl (r"</relationships>")) with
  | none => []
  | some content => ((splitOnChar nlc (jsTrim content)).filterMap parseRelLine)

/-- The spec's acceptance condition for a pipe-delimited line: contains `|`
and the first three pipe-separated fields are non-empty after trimming. -/
def lineOkB (line : List Char) : Bool :=
  line.any (fun c => c == barc) &&
    match (splitOnChar barc line).map jsTrim with
    | p0 :: p1 :: p2 :: _ => !p0.isEmpty && !p1.isEmpty && !p2.isEmpty
    | _ => false

/-- A string whose trim is empty consists of whitespace only. -/
theorem jsTrim_nil_all_ws (l : List Char) (h : jsTrim l = []) : ∀ c ∈ l, wsChar c = true := by
  unfold jsTrim at h
  rw [List.reverse_eq_nil_iff, List.dropWhile_eq_nil_iff] at h
  have hdrop : ∀ c ∈ l.dropWhile wsChar, wsChar c = true := by
    intro c hc
    exact h c (List.mem_reverse.mpr hc)
  intro c hc
  rw [← List.takeWhile_append_dropWhile (p := wsChar) (l := l)] at hc
  rcases List.mem_append.mp hc with htk | hdr
  · exact List.mem_takeWhile_imp htk
  · exact hdrop c hdr

/-- A line containing a pipe does not trim to empty. -/
theorem any_barc_of_trim_nil (line : List Char) (h : jsTrim line = []) :
    (line.any (fun c => c == barc)) = false := by
  rw [List.any_eq_false]
  intro c hc
  have hws := jsTrim_nil_all_ws line h c hc
  intro hbeq
  rw [eq_of_beq hbeq] at hws
  exact absurd hws (by decide)

/-- C7 (confirmed): a pipe-delimited line is accepted by the extraction
parser if and only if it contains `|` and its first three trimmed fields are
non-empty, for both the entity and the relationship loops; and an accepted
entity line keeps every field beyond the second as the summary, rejoined
with their pipes. -/
theorem c7_line_acceptance (line : List Char) :
    ((parseEntityLine line).isSome = true ↔ lineOkB line = true) ∧
    ((parseRelLine line).isSome = true ↔ lineOkB line = true) ∧
    (∀ e : PEntity, parseEntityLine line = some e →
      ∃ rest, (splitOnChar barc line).map jsTrim = e.name :: e.type :: rest ∧
        e.summary = List.intercalate [barc] rest ∧ rest ≠ []) := by
  unfold parseEntityLine parseRelLine lineOkB
  cases hany : line.any (fun c => c == barc) with
  | false => simp [hany]
  | true =>
    have htr : (jsTrim line == []) = false := by
      rw [beq_eq_false_iff_ne]
      intro h
      rw [any_barc_of_trim_nil line h] at hany
      exact Bool.false_ne_true hany
    simp only [htr, hany, Bool.false_or, Bool.not_true, Bool.false_eq_true, if_false,
      Bool.true_and]
    rcases hp : (splitOnChar barc line).map jsTrim with _ | ⟨p0, _ | ⟨p1, _ | ⟨p2, rest⟩⟩⟩
    · simp
    · simp
    · simp
    · dsimp only
      by_cases hne : p0 ≠ [] ∧ p1 ≠ [] ∧ p2 ≠ []
      · rw [if_pos hne, if_pos hne]
        refine ⟨?_, ?_, ?_⟩
        · simp [List.isEmpty_eq_false, hne.1, hne.2.1, hne.2.2]
        · simp [List.isEmpty_eq_false, hne.1, hne.2.1, hne.2.2]
        · intro e he
          injection he with he
          subst he
          exact ⟨p2 :: rest, rfl, rfl, by simp⟩
      · rw [if_neg hne, if_neg hne]
        refine ⟨?_, ?_, ?_⟩
        · simp only [Option.isSome_none, Bool.false_eq_true, false_iff, Bool.and_eq_true,
            Bool.not_eq_true', List.isEmpty_eq_false, not_and]
          intro h0 h1
          exact hne ⟨h0.1, h0.2, h1⟩
        · simp only [Option.isSome_none, Bool.false_eq_true, false_iff, Bool.and_eq_true,
            Bool.not_eq_true', List.isEmpty_eq_false, not_and]
          intro h0 h1
          exact hne ⟨h0.1, h0.2, h1⟩
        · intro e he
          exact absurd he (by simp)

/-- Witness for C7: the theorem applied to a concrete entity line whose
summary contains an extra pipe. -/
theorem c7_line_acceptance_witness :
    ∃ rest, (splitOnChar barc (cl (r"Ann | person | knows Bob|x"))).map jsTrim =
      (PEntity.mk (cl (r"Ann")) (cl (r"person")) (cl (r"knows Bob|x"))).name ::
        (PEntity.mk (cl (r"Ann")) (cl (r"person")) (cl (r"knows Bob|x"))).type :: rest ∧
      (PEntity.mk (cl (r"Ann")) (cl (r"person")) (cl (r"knows Bob|x"))).summary =
        List.intercalate [barc] rest ∧ rest ≠ [] :=
  (c7_line_acceptance (cl (r"Ann | person | knows Bob|x"))).2.2
    (PEntity.mk (cl (r"Ann")) (cl (r"person")) (cl (r"knows Bob|x"))) (by decide)

/-- ASCII model of `String.prototype.toLowerCase` on one character. -/
def lowChar (c : Char) : Char :=
  if 65 ≤ c.toNat ∧ c.toNat ≤ 90 then Char.ofNat (c.toNat + 32) else c

/-- ASCII model of `String.prototype.toLowerCase`. -/
def lowStr (s : List Char) : List Char := s.map lowChar

/-- Model of `String.prototype.includes`: the pattern occurs somewhere. -/
def jsIncludes (s sub : List Char) : Bool :=
  (List.range (s.length + 1)).any (fun i => patAt s sub i)

/-- Model of `split(/\s+/)`: whitespace runs separate fields; a leading or
trailing run produces an empty field, exactly as in JS. -/
def splitWsAux : List Char → List Char → List (List Char)
  | [], cur => [cur.reverse]
  | c :: rest, cur =>
    if wsChar c then cur.reverse :: splitWsAux (rest.dropWhile wsChar) []
    else splitWsAux rest (c :: cur)
termination_by l _ => l.length
decreasing_by
  · simp only [List.length_cons]
    exact Nat.lt_succ_of_le ((List.dropWhile_sublist _).length_le)
  · simp only [List.length_cons]
    omega

/-- Split on whitespace runs. -/
def splitWs (l : List Char) : List (List Char) := splitWsAux l []

/-- An entity node as stored by `EntityGraph` (src/src/providers/rag/graph.ts
lines 1-6); the JS `Set` of session ids is an insertion-ordered list without
duplicates. -/
structure GEntityNode where
  name : List Char
  type : List Char
  summary : List Char
  sessionIds : List (List Char)
deriving DecidableEq

/-- A relationship edge (graph.ts lines 8-14). -/
structure GREdge where
  source : List Char
  target : List Char
  relation : List Char
  date : Option (List Char)
  sessionId : List Char
deriving DecidableEq

/-- The `EntityGraph` state: JS `Map`s and `Set`s are insertion-ordered
association lists / duplicate-free lists. -/
structure EntityGraphM where
  nodes : List (List Char × GEntityNode)
  edgeSet : List (List Char)
  adjacency : List (List Char × List GREdge)
  nameIndex : List (List Char × List (List Char))
deriving DecidableEq

/-- The empty graph (also the result of `clear()`). -/
def graphEmptyM : EntityGraphM := ⟨[], [], [], []⟩

/-- Association-list lookup (JS `Map.get`). -/
def alFind (l : List (List Char × α)) (k : List Char) : Option α :=
  (l.find? (fun p => p.1 == k)).map Prod.snd

/-- Association-list update (JS `Map.set`): replace in place, else append. -/
def alSet (l : List (List Char × α)) (k : List Char) (v : α) : List (List Char × α) :=
  if l.any (fun p => p.1 == k) then l.map (fun p => if p.1 == k then (k, v) else p)
  else l ++ [(k, v)]

/-- Ordered-set insert (JS `Set.add`). -/
def setAdd (s : List (List Char)) (x : List Char) : List (List Char) :=
  if s.contains x then s else s ++ [x]

/-- Append an edge to a key's adjacency list, creating the entry if needed
(the `if (!has) set(k, []); get(k).push(e)` idiom). -/
def alPush (adj : List (List Char × List GREdge)) (k : List Char) (e : GREdge) :
    List (List Char × List GREdge) :=
  if adj.any (fun p => p.1 == k) then
    adj.map (fun p => if p.1 == k then (p.1, p.2 ++ [e]) else p)
  else adj ++ [(k, [e])]

/-- Add one canonical name under one index key (the NameIndex `add` idiom). -/
def niAdd (ni : List (List Char × List (List Char))) (k canonical : List Char) :
    List (List Char × List (List Char)) :=
  match alFind ni k with
  | some s => alSet ni k (setAdd s canonical)
  | none => ni ++ [(k, [canonical])]

/-- Index the full lowercased name and every part of length > 2
(graph.ts lines 53-64; also rebuilt identically by `load`). -/
def indexName (ni : List (List Char × List (List Char))) (canonical : List Char) :
    List (List Char × List (List Char)) :=
  let ni1 := niAdd ni (lowStr canonical) canonical
  (splitWs canonical).foldl
    (fun ni part => if 2 < part.length then niAdd ni (lowStr part) canonical else ni) ni1

/-- Model of `EntityGraph.addEntity` (graph.ts lines 34-65): trim the name and
reject empty; merge into an existing node (add the session, and append the
summary unless its 40-character prefix already occurs, truncating to 500) or
create a new node with lowercased type; then index the name. -/
def addEntity (g : EntityGraphM) (name ty summary sid : List Char) : EntityGraphM :=
  let canonical := jsTrim name
  if canonical = [] then g
  else
    let g1 :=
      match alFind g.nodes canonical with
      | some node =>
        let node1 :=
          if summary ≠ [] ∧ jsIncludes node.summary (summary.take 40) = false then
            { node with
                sessionIds := setAdd node.sessionIds sid
                summary := (node.summary ++ spc :: summary).take 500 }
          else { node with sessionIds := setAdd node.sessionIds sid }
        { g with nodes := alSet g.nodes canonical node1 }
      | none =>
        let node0 : GEntityNode :=
          { name := canonical, type := lowStr ty, summary := summary, sessionIds := [sid] }
        { g with nodes := alSet g.nodes canonical node0 }
    { g1 with nameIndex := indexName g1.nameIndex canonical }

/-- The edge dedup key `source|relation|target`. -/
def edgeKey (e : GREdge) : List Char := e.source ++ barc :: e.relation ++ barc :: e.target

/-- Model of `EntityGraph.addRelationship` (graph.ts lines 67-77): ignore a
duplicate key, else record the key and push the edge onto both endpoints'
adjacency lists. -/
def addRelationship (g : EntityGraphM) (e : GREdge) : EntityGraphM :=
  if g.edgeSet.contains (edgeKey e) then g
  else
    { g with
        edgeSet := g.edgeSet ++ [edgeKey e]
        adjacency := alPush (alPush g.adjacency e.source e) e.target e }

/-- JS `\w` word character (ASCII): letter, digit or underscore. -/
def isWordChar (c : Char) : Bool :=
  (97 ≤ c.toNat && c.toNat ≤ 122) || (65 ≤ c.toNat && c.toNat ≤ 90) ||
  (48 ≤ c.toNat && c.toNat ≤ 57) || c.toNat == 95

/-- Is the character at index `i` a word character (out of range: no)? -/
def wordAt (s : List Char) (i : Nat) : Bool :=
  decide (i < s.length) && isWordChar (s.getD i spc)

/-- Regex `\b` at position `p`: word-ness changes between the neighbours. -/
def boundaryAt (s : List Char) (p : Nat) : Bool :=
  (decide (p ≠ 0) && wordAt s (p - 1)) != wordAt s p

/-- Test of `new RegExp("\\b" + escapeRegex(key) + "\\b")` against `s`: the
escaped key is matched literally between two word boundaries. -/
def regexWordB (s key : List Char) : Bool :=
  (List.range (s.length + 1)).any
    (fun i => patAt s key i && boundaryAt s i && boundaryAt s (i + key.length))

/-- Model of `EntityGraph.findEntitiesInQuery` (graph.ts lines 79-93):
whole-word match of every index key of length > 2 against the lowercased
query; the matched canonical names accumulate in a `Set`. -/
def findEntitiesInQuery (g : EntityGraphM) (query : List Char) : List (List Char) :=
  let ql := lowStr query
  g.nameIndex.foldl
    (fun acc p =>
      if p.1.length ≤ 2 then acc
      else if regexWordB ql p.1 then p.2.foldl setAdd acc
      else acc) []

/-- A traversal output relationship (graph.ts lines 16-19: no sessionId). -/
structure GRelOut where
  source : List Char
  target : List Char
  relation : List Char
  date : Option (List Char)
deriving DecidableEq

/-- Mutable state of `getContext`. -/
structure GCState where
  visited : List (List Char)
  ents : List PEntity
  rels : List GRelOut
  seen : List (List Char)
deriving DecidableEq

/-- Processing of one adjacency edge inside the hop loop (graph.ts lines
118-142): dedup by key, record the relationship below the cap, and visit the
far endpoint, recording its node below the entity cap. -/
def gcEdgeStep (g : EntityGraphM) (name : List Char) (st : GCState × List (List Char))
    (edge : GREdge) : GCState × List (List Char) :=
  let s := st.1
  let nf := st.2
  if s.seen.contains (edgeKey edge) then (s, nf)
  else
    let s1 := { s with seen := s.seen ++ [edgeKey edge] }
    let s2 :=
      if s1.rels.length < 20 then
        { s1 with rels := s1.rels ++ [⟨edge.source, edge.target, edge.relation, edge.date⟩] }
      else s1
    let other := if edge.source == name then edge.target else edge.source
    if s2.visited.contains other then (s2, nf)
    else
      let s3 := { s2 with visited := s2.visited ++ [other] }
      let nf1 := nf ++ [other]
      match alFind g.nodes other with
      | some onode =>
        if s3.ents.length < 10 then
          ({ s3 with ents := s3.ents ++ [⟨onode.name, onode.type, onode.summary⟩] }, nf1)
        else (s3, nf1)
      | none => (s3, nf1)

/-- One hop: process every frontier name's adjacency list, collecting the
next frontier. -/
def gcHop (g : EntityGraphM) (frontier : List (List Char)) (st : GCState) :
    GCState × List (List Char) :=
  frontier.foldl
    (fun acc name => ((alFind g.adjacency name).getD []).foldl (gcEdgeStep g name) acc)
    (st, [])

/-- The hop loop (`hop < maxHops && frontier.length > 0`). -/
def gcLoop (g : EntityGraphM) : Nat → List (List Char) → GCState → GCState
  | 0, _, st => st
  | h + 1, frontier, st =>
    if frontier = [] then st
    else
      let r := gcHop g frontier st
      gcLoop g h r.2 r.1

/-- Seed processing (graph.ts lines 102-109): seeds are visited and recorded
below the entity cap, before any hop. -/
def gcSeed (g : EntityGraphM) (names : List (List Char)) : GCState :=
  names.foldl
    (fun st name =>
      if st.visited.contains name then st
      else
        let st1 := { st with visited := st.visited ++ [name] }
        match alFind g.nodes name with
        | some node =>
          if st1.ents.length < 10 then
            { st1 with ents := st1.ents ++ [⟨node.name, node.type, node.summary⟩] }
          else st1
        | none => st1)
    ⟨[], [], [], []⟩

/-- Model of `EntityGraph.getContext` (graph.ts lines 95-149). -/
def getContext (g : EntityGraphM) (entityNames : List (List Char)) (maxHops : Nat) :
    List PEntity × List GRelOut :=
  let st := gcLoop g maxHops entityNames (gcSeed g entityNames)
  (st.ents, st.rels)

/-- Fold preservation helper. -/
theorem foldl_preserve {α : Type} {β : Type} (P : α → Prop) (f : α → β → α)
    (hf : ∀ a b, P a → P (f a b)) : ∀ (l : List β) (a : α), P a → P (l.foldl f a) := by
  intro l
  induction l with
  | nil => intro a h; exact h
  | cons x xs ih => intro a h; exact ih (f a x) (hf a x h)

/-- One edge step keeps both caps. -/
theorem gcEdgeStep_caps (g : EntityGraphM) (name : List Char)
    (p : GCState × List (List Char)) (e : GREdge)
    (h : p.1.ents.length ≤ 10 ∧ p.1.rels.length ≤ 20) :
    (gcEdgeStep g name p e).1.ents.length ≤ 10 ∧
      (gcEdgeStep g name p e).1.rels.length ≤ 20 := by
  obtain ⟨s, nf⟩ := p
  obtain ⟨h1, h2⟩ := h
  dsimp only at h1 h2
  unfold gcEdgeStep
  dsimp only
  split
  · exact ⟨h1, h2⟩
  · repeat' split
    all_goals refine ⟨?_, ?_⟩
    all_goals simp_arith [List.length_append] at *
    all_goals try omega

/-- The hop fold keeps both caps. -/
theorem gcHop_caps (g : EntityGraphM) (frontier : List (List Char)) (st : GCState)
    (h : st.ents.length ≤ 10 ∧ st.rels.length ≤ 20) :
    (gcHop g frontier st).1.ents.length ≤ 10 ∧ (gcHop g frontier st).1.rels.length ≤ 20 := by
  unfold gcHop
  refine foldl_preserve
    (fun (q : GCState × List (List Char)) => q.1.ents.length ≤ 10 ∧ q.1.rels.length ≤ 20)
    _ ?_ frontier (st, []) h
  intro a b ha
  exact foldl_preserve
    (fun (q : GCState × List (List Char)) => q.1.ents.length ≤ 10 ∧ q.1.rels.length ≤ 20)
    (gcEdgeStep g b) (fun a2 e ha2 => gcEdgeStep_caps g b a2 e ha2) _ a ha

/-- The hop loop keeps both caps. -/
theorem gcLoop_caps (g : EntityGraphM) :
    ∀ (hops : Nat) (frontier : List (List Char)) (st : GCState),
      st.ents.length ≤ 10 ∧ st.rels.length ≤ 20 →
      (gcLoop g hops frontier st).ents.length ≤ 10 ∧
        (gcLoop g hops frontier st).rels.length ≤ 20 := by
  intro hops
  induction hops with
  | zero => intro frontier st h; exact h
  | succ n ih =>
    intro frontier st h
    rw [gcLoop]
    split
    · exact h
    · exact ih _ _ (gcHop_caps g frontier st h)

/-- Seed processing keeps both caps. -/
theorem gcSeed_caps (g : EntityGraphM) (names : List (List Char)) :
    (gcSeed g names).ents.length ≤ 10 ∧ (gcSeed g names).rels.length ≤ 20 := by
  unfold gcSeed
  refine foldl_preserve
    (fun (st : GCState) => st.ents.length ≤ 10 ∧ st.rels.length ≤ 20) _ ?_ names _ (by simp)
  intro a b ha
  dsimp only
  repeat' split
  all_goals refine ⟨?_, ?_⟩
  all_goals simp_arith [List.length_append] at *
  all_goals try omega

/-- C5 (confirmed): for every graph state, seed list and hop budget,
`getContext` returns at most `MAX_GRAPH_ENTITIES = 10` entities and at most
`MAX_GRAPH_RELATIONSHIPS = 20` relationships: every push is guarded by the
cap while traversal continues regardless, and the seed layer is processed
before the hop loop without consuming a hop. -/
theorem c5_getContext_caps (g : EntityGraphM) (entityNames : List (List Char)) (maxHops : Nat) :
    (getContext g entityNames maxHops).1.length ≤ 10 ∧
      (getContext g entityNames maxHops).2.length ≤ 20 := by
  unfold getContext
  exact gcLoop_caps g maxHops entityNames (gcSeed g entityNames) (gcSeed_caps g entityNames)

/-- A successful association-list lookup returns a stored pair. -/
theorem alFind_some_mem {α : Type} (l : List (List Char × α)) (k : List Char) (v : α)
    (h : alFind l k = some v) : (k, v) ∈ l := by
  unfold alFind at h
  rcases Option.map_eq_some'.mp h with ⟨p, hp, hv⟩
  have hk : p.1 = k := by
    have := List.find?_some hp
    simpa using this
  have hkv : (k, v) = p := by
    rw [← hk, ← hv]
  rw [hkv]
  exact List.mem_of_find?_eq_some hp

/-- A failed association-list lookup means the key is absent. -/
theorem alFind_none_not_mem {α : Type} (l : List (List Char × α)) (k : List Char)
    (h : alFind l k = none) : k ∉ l.map Prod.fst := by
  unfold alFind at h
  rw [Option.map_eq_none'] at h
  rw [List.find?_eq_none] at h
  intro hk
  rcases List.mem_map.mp hk with ⟨p, hp, hfst⟩
  exact h p hp (by simp [hfst])

/-- Updating a present key leaves the key list unchanged. -/
theorem alSet_keys_present {α : Type} (l : List (List Char × α)) (k : List Char) (v : α)
    (h : l.any (fun p => p.1 == k) = true) :
    (alSet l k v).map Prod.fst = l.map Prod.fst := by
  unfold alSet
  rw [if_pos h, List.map_map]
  apply List.map_congr_left
  intro p _
  by_cases hp : p.1 = k
  · simp [hp]
  · simp [hp]

/-- Inserting a fresh key appends it. -/
theorem alSet_keys_absent {α : Type} (l : List (List Char × α)) (k : List Char) (v : α)
    (h : l.any (fun p => p.1 == k) = false) :
    (alSet l k v).map Prod.fst = l.map Prod.fst ++ [k] := by
  unfold alSet
  rw [if_neg (by rw [h]; exact Bool.false_ne_true), List.map_append]
  rfl

/-- Every member of an updated association list is the new pair or an old one. -/
theorem mem_alSet {α : Type} (l : List (List Char × α)) (k : List Char) (v : α)
    (q : List Char × α) (h : q ∈ alSet l k v) : q = (k, v) ∨ q ∈ l := by
  unfold alSet at h
  split at h
  · rcases List.mem_map.mp h with ⟨p, hp, hq⟩
    by_cases hpk : p.1 == k
    · left
      rw [← hq]
      simp [hpk]
    · right
      rw [← hq]
      simpa [hpk] using hp
  · rcases List.mem_append.mp h with hq | hq
    · right; exact hq
    · left; simpa using hq

/-- One `addEntity` call as issued by the ingest loop. -/
structure EntCall where
  name : List Char
  ty : List Char
  summary : List Char
  sid : List Char

/-- Apply a sequence of `addEntity` calls to the empty graph. -/
def entApply (calls : List EntCall) : EntityGraphM :=
  calls.foldl (fun g c => addEntity g c.name c.ty c.summary c.sid) graphEmptyM

/-- The C4 invariant, relative to the call list the summaries come from. -/
def c4Inv (L : List EntCall) (g : EntityGraphM) : Prop :=
  (g.nodes.map Prod.fst).Nodup ∧
    ∀ p ∈ g.nodes, p.1 = p.2.name ∧ (∃ t, p.2.type = lowStr t) ∧
      (p.2.summary.length ≤ 500 ∨ ∃ c ∈ L, p.2.summary = c.summary)

/-- `addEntity` preserves the C4 invariant. -/
theorem addEntity_c4Inv (L : List EntCall) (g : EntityGraphM) (c : EntCall) (hc : c ∈ L)
    (h : c4Inv L g) : c4Inv L (addEntity g c.name c.ty c.summary c.sid) := by
  obtain ⟨hkeys, hmem⟩ := h
  unfold addEntity
  dsimp only
  split
  · exact ⟨hkeys, hmem⟩
  · rename_i hne
    rcases hfind : alFind g.nodes (jsTrim c.name) with _ | node
    all_goals simp only [hfind]
    · -- creation path
      have habs : (g.nodes.any (fun p => p.1 == jsTrim c.name)) = false := by
        rw [List.any_eq_false]
        intro p hp hbeq
        exact alFind_none_not_mem g.nodes (jsTrim c.name) hfind
          (List.mem_map.mpr ⟨p, hp, eq_of_beq hbeq⟩)
      constructor
      · dsimp only
        rw [alSet_keys_absent _ _ _ habs]
        rw [List.nodup_append]
        refine ⟨hkeys, List.nodup_singleton _, ?_⟩
        intro a ha hb
        rw [List.mem_singleton] at hb
        subst hb
        exact alFind_none_not_mem g.nodes (jsTrim c.name) hfind ha
      · intro p hp
        dsimp only at hp
        rcases mem_alSet _ _ _ _ hp with rfl | hold
        · exact ⟨rfl, ⟨c.ty, rfl⟩, Or.inr ⟨c, hc, rfl⟩⟩
        · exact hmem p hold
    · -- merge path
      constructor
      · dsimp only
        rw [alSet_keys_present]
        · exact hkeys
        · rw [List.any_eq_true]
          exact ⟨(jsTrim c.name, node), alFind_some_mem _ _ _ hfind, by simp⟩
      · intro p hp
        dsimp only at hp
        rcases mem_alSet _ _ _ _ hp with rfl | hold
        · have hnode := hmem (jsTrim c.name, node) (alFind_some_mem _ _ _ hfind)
          refine ⟨?_, ?_, ?_⟩
          · split <;> exact hnode.1
          · split <;> exact hnode.2.1
          · split
            · left
              simp only [List.length_take]
              omega
            · exact hnode.2.2
        · exact hmem p hold

/-- C4 (corrected): after any sequence of `addEntity` calls, node names are
unique per container (a repeated name merges into the existing node), every
stored pair's key is the node's canonical name, every type is a lowercased
string, and every summary either has length at most 500 or is the verbatim
summary argument of the call that created its node (the creation path stores
the summary untruncated; only merges truncate to 500).  Consequently every
summary has length at most 500 whenever every supplied summary does. -/
theorem c4_addEntity_invariants (calls : List EntCall) :
    (((entApply calls).nodes.map Prod.fst).Nodup ∧
      ∀ p ∈ (entApply calls).nodes, p.1 = p.2.name ∧ (∃ t, p.2.type = lowStr t) ∧
        (p.2.summary.length ≤ 500 ∨ ∃ c ∈ calls, p.2.summary = c.summary)) ∧
    ((∀ c ∈ calls, c.summary.length ≤ 500) →
      ∀ p ∈ (entApply calls).nodes, p.2.summary.length ≤ 500) := by
  have hmain : c4Inv calls (entApply calls) := by
    unfold entApply
    have hgen : ∀ (cs : List EntCall) (g : EntityGraphM), (∀ c ∈ cs, c ∈ calls) → c4Inv calls g →
        c4Inv calls (cs.foldl (fun g c => addEntity g c.name c.ty c.summary c.sid) g) := by
      intro cs
      induction cs with
      | nil => intro g _ h; exact h
      | cons c rest ih =>
        intro g hsub h
        exact ih _ (fun x hx => hsub x (List.mem_cons_of_mem _ hx))
          (addEntity_c4Inv calls g c (hsub c (List.mem_cons_self _ _)) h)
    exact hgen calls graphEmptyM (fun _ hx => hx) ⟨List.nodup_nil, fun p hp => absurd hp (List.not_mem_nil p)⟩
  refine ⟨hmain, fun hall p hp => ?_⟩
  rcases (hmain.2 p hp).2.2 with hle | ⟨c, hcmem, hceq⟩
  · exact hle
  · rw [hceq]
    exact hall c hcmem

set_option maxRecDepth 4000 in
/-- C4 counterexample: a single `addEntity` call with a 501-character summary
creates a node whose stored summary has length 501 > 500 — the creation path
performs no truncation (only the merge path truncates). -/
theorem c4_counterexample :
    (entApply [⟨cl (r"Ann"), cl (r"person"), List.replicate 501 achr, cl (r"s1")⟩]).nodes =
      [(cl (r"Ann"),
        GEntityNode.mk (cl (r"Ann")) (cl (r"person")) (List.replicate 501 achr) [cl (r"s1")])] ∧
      ¬ ((List.replicate 501 achr).length ≤ 500) := by
  constructor
  · decide
  · rw [List.length_replicate]
    omega

/-- Witness for C4: the theorem applied to one concrete call with a short
summary, showing its stored summary respects the 500 bound. -/
theorem c4_addEntity_invariants_witness :
    ((cl (r"Bob"),
      GEntityNode.mk (cl (r"Bob")) (cl (r"person")) (cl (r"hi")) [cl (r"s1")])).2.summary.length ≤ 500 :=
  (c4_addEntity_invariants [⟨cl (r"Bob"), cl (r"Person"), cl (r"hi"), cl (r"s1")⟩]).2
    (by decide) _ (by decide)

/-- A serialized entity node (graph.ts lines 212-217). -/
structure SEntityNode where
  name : List Char
  type : List Char
  summary : List Char
  sessionIds : List (List Char)
deriving DecidableEq

/-- The serialized graph snapshot (graph.ts lines 219-222). -/
structure SerializedGraphM where
  nodes : List SEntityNode
  edges : List GREdge
deriving DecidableEq

/-- All edges stored in adjacency lists, in map-iteration order. -/
def adjEdges (g : EntityGraphM) : List GREdge := (g.adjacency.map Prod.snd).flatten

/-- The save-side edge dedup (graph.ts lines 164-174): keep the first
occurrence per key while traversing the adjacency lists. -/
def dedupEdges : List GREdge → List (List Char) → List GREdge
  | [], _ => []
  | e :: r, seen =>
    if seen.contains (edgeKey e) then dedupEdges r seen
    else e :: dedupEdges r (edgeKey e :: seen)

/-- Model of `EntityGraph.save` (graph.ts lines 159-176). -/
def gSave (g : EntityGraphM) : SerializedGraphM :=
  { nodes := g.nodes.map (fun p => ⟨p.2.name, p.2.type, p.2.summary, p.2.sessionIds⟩)
    edges := dedupEdges (adjEdges g) [] }

/-- `new Set(array)`: dedup keeping first occurrences. -/
def listToSet (l : List (List Char)) : List (List Char) := l.foldl setAdd []

/-- The per-node step of `EntityGraph.load` (graph.ts lines 180-198): store
the node (session ids through `new Set`) and rebuild the name index. -/
def loadNodeStep (g : EntityGraphM) (sn : SEntityNode) : EntityGraphM :=
  let node := GEntityNode.mk sn.name sn.type sn.summary (listToSet sn.sessionIds)
  let g1 := { g with nodes := alSet g.nodes sn.name node }
  { g1 with nameIndex := indexName g1.nameIndex sn.name }

/-- Model of `EntityGraph.load` (graph.ts lines 178-202): clear, insert every
serialized node, then `addRelationship` every serialized edge. -/
def gLoad (data : SerializedGraphM) : EntityGraphM :=
  (data.edges.foldl addRelationship (data.nodes.foldl loadNodeStep graphEmptyM))

/-- A graph-building operation. -/
inductive GOp where
  | ent (name ty summary sid : List Char)
  | rel (e : GREdge)

/-- Apply one operation. -/
def gStep (g : EntityGraphM) : GOp → EntityGraphM
  | GOp.ent n t s sid => addEntity g n t s sid
  | GOp.rel e => addRelationship g e

/-- A graph reached from empty by a sequence of operations. -/
def gApply (ops : List GOp) : EntityGraphM := ops.foldl gStep graphEmptyM

/-- `Set.add` of an absent element appends it. -/
theorem setAdd_absent (s : List (List Char)) (x : List Char) (h : x ∉ s) :
    setAdd s x = s ++ [x] := by
  unfold setAdd
  rw [if_neg]
  intro hc
  exact h (List.elem_iff.mp hc)

/-- `Set.add` keeps the no-duplicates invariant. -/
theorem setAdd_nodup (s : List (List Char)) (x : List Char) (h : s.Nodup) :
    (setAdd s x).Nodup := by
  unfold setAdd
  split
  · exact h
  · rename_i hc
    rw [List.nodup_append]
    refine ⟨h, List.nodup_singleton _, ?_⟩
    intro a ha hb
    rw [List.mem_singleton] at hb
    subst hb
    exact absurd (List.elem_iff.mpr ha) (by simpa using hc)

/-- `new Set(array)` of a duplicate-free array returns it unchanged. -/
theorem listToSet_eq_self (l : List (List Char)) (h : l.Nodup) : listToSet l = l := by
  unfold listToSet
  have hgen : ∀ (m : List (List Char)) (acc : List (List Char)),
      m.Nodup → (∀ x ∈ m, x ∉ acc) → m.foldl setAdd acc = acc ++ m := by
    intro m
    induction m with
    | nil => intro acc _ _; simp
    | cons x r ih =>
      intro acc hnd hdisj
      rw [List.foldl_cons, setAdd_absent acc x (hdisj x (List.mem_cons_self _ _))]
      rw [ih (acc ++ [x]) (List.nodup_cons.mp hnd).2]
      · simp
      · intro y hy hmem
        rcases List.mem_append.mp hmem with hacc | hsing
        · exact hdisj y (List.mem_cons_of_mem _ hy) hacc
        · rw [List.mem_singleton] at hsing
          subst hsing
          exact (List.nodup_cons.mp hnd).1 hy
  rw [hgen l [] h (by simp)]
  simp

/-- Membership in the adjacency pool after an `alPush`: the old edges plus
the pushed edge. -/
theorem mem_alPush (adj : List (List Char × List GREdge)) (k : List Char) (e x : GREdge) :
    x ∈ ((alPush adj k e).map Prod.snd).flatten ↔
      x ∈ (adj.map Prod.snd).flatten ∨ x = e := by
  unfold alPush
  by_cases hpresent : (adj.any fun p => p.1 == k) = true
  · rw [if_pos hpresent]
    simp only [List.mem_flatten, List.mem_map]
    constructor
    · rintro ⟨lst, ⟨q, ⟨p, hp, rfl⟩, rfl⟩, hxl⟩
      by_cases hpk : (p.1 == k) = true
      · rw [if_pos hpk] at hxl
        dsimp only at hxl
        rcases List.mem_append.mp hxl with hold | hnew
        · exact Or.inl ⟨p.2, ⟨p, hp, rfl⟩, hold⟩
        · exact Or.inr (by simpa using hnew)
      · rw [if_neg hpk] at hxl
        exact Or.inl ⟨p.2, ⟨p, hp, rfl⟩, hxl⟩
    · intro hx
      rcases hx with ⟨lst, ⟨p, hp, rfl⟩, hxl⟩ | hxe
      · by_cases hpk : (p.1 == k) = true
        · exact ⟨p.2 ++ [e], ⟨(p.1, p.2 ++ [e]), ⟨p, hp, by rw [if_pos hpk]⟩, rfl⟩,
            List.mem_append_left _ hxl⟩
        · exact ⟨p.2, ⟨p, ⟨p, hp, by rw [if_neg hpk]⟩, rfl⟩, hxl⟩
      · subst hxe
        rcases List.any_eq_true.mp hpresent with ⟨p, hp, hbeq⟩
        exact ⟨p.2 ++ [x], ⟨(p.1, p.2 ++ [x]), ⟨p, hp, by rw [if_pos hbeq]⟩, rfl⟩, by simp⟩
  · rw [if_neg hpresent, List.map_append, List.flatten_append]
    simp

/-- The C9 well-formedness invariant of reachable graph states. -/
def c9Inv (g : EntityGraphM) : Prop :=
  (g.nodes.map Prod.fst).Nodup ∧
    (∀ p ∈ g.nodes, p.1 = p.2.name ∧ p.2.sessionIds.Nodup) ∧
    (∀ e ∈ adjEdges g, edgeKey e ∈ g.edgeSet) ∧
    (∀ k ∈ g.edgeSet, ∃ e ∈ adjEdges g, edgeKey e = k) ∧
    (∀ e1 ∈ adjEdges g, ∀ e2 ∈ adjEdges g, edgeKey e1 = edgeKey e2 → e1 = e2)

/-- `addEntity` leaves the edge structures untouched. -/
theorem addEntity_edges (g : EntityGraphM) (n t s sid : List Char) :
    (addEntity g n t s sid).adjacency = g.adjacency ∧
      (addEntity g n t s sid).edgeSet = g.edgeSet := by
  unfold addEntity
  dsimp only
  split
  · exact ⟨rfl, rfl⟩
  · rcases alFind g.nodes (jsTrim n) with _ | node <;> exact ⟨rfl, rfl⟩

/-- `addEntity` preserves the C9 invariant. -/
theorem addEntity_c9Inv (g : EntityGraphM) (n t s sid : List Char) (h : c9Inv g) :
    c9Inv (addEntity g n t s sid) := by
  obtain ⟨hkeys, hnodes, hA, hB, hC⟩ := h
  have hedge := addEntity_edges g n t s sid
  have hadj : adjEdges (addEntity g n t s sid) = adjEdges g := by
    unfold adjEdges
    rw [hedge.1]
  refine ⟨?_, ?_, ?_, ?_, ?_⟩
  · -- node keys
    unfold addEntity
    dsimp only
    split
    · exact hkeys
    · rcases hfind : alFind g.nodes (jsTrim n) with _ | node
      all_goals simp only [hfind]
      · rw [alSet_keys_absent]
        · rw [List.nodup_append]
          refine ⟨hkeys, List.nodup_singleton _, ?_⟩
          intro a ha hb
          rw [List.mem_singleton] at hb
          subst hb
          exact alFind_none_not_mem g.nodes (jsTrim n) hfind ha
        · rw [List.any_eq_false]
          intro p hp hbeq
          exact alFind_none_not_mem g.nodes (jsTrim n) hfind
            (List.mem_map.mpr ⟨p, hp, eq_of_beq hbeq⟩)
      · rw [alSet_keys_present]
        · exact hkeys
        · rw [List.any_eq_true]
          exact ⟨(jsTrim n, node), alFind_some_mem _ _ _ hfind, by simp⟩
  · -- per-node facts
    unfold addEntity
    dsimp only
    split
    · exact hnodes
    · rcases hfind : alFind g.nodes (jsTrim n) with _ | node
      all_goals simp only [hfind]
      · intro p hp
        rcases mem_alSet _ _ _ _ hp with rfl | hold
        · exact ⟨rfl, List.nodup_singleton _⟩
        · exact hnodes p hold
      · intro p hp
        rcases mem_alSet _ _ _ _ hp with rfl | hold
        · have hn := hnodes (jsTrim n, node) (alFind_some_mem _ _ _ hfind)
          constructor
          · split <;> exact hn.1
          · split <;> exact setAdd_nodup _ _ hn.2
        · exact hnodes p hold
  · rw [hadj, hedge.2]
    exact hA
  · rw [hadj, hedge.2]
    exact hB
  · rw [hadj]
    exact hC

/-- `addRelationship` preserves the C9 invariant. -/
theorem addRelationship_c9Inv (g : EntityGraphM) (e : GREdge) (h : c9Inv g) :
    c9Inv (addRelationship g e) := by
  obtain ⟨hkeys, hnodes, hA, hB, hC⟩ := h
  unfold addRelationship
  split
  · exact ⟨hkeys, hnodes, hA, hB, hC⟩
  · rename_i hfresh
    have hfresh2 : edgeKey e ∉ g.edgeSet := fun hmem =>
      absurd (List.elem_iff.mpr hmem) (by simpa using hfresh)
    have hadj : ∀ x, x ∈ adjEdges
        { g with
            edgeSet := g.edgeSet ++ [edgeKey e]
            adjacency := alPush (alPush g.adjacency e.source e) e.target e } ↔
        x ∈ adjEdges g ∨ x = e := by
      intro x
      unfold adjEdges
      dsimp only
      rw [mem_alPush, mem_alPush]
      tauto
    refine ⟨hkeys, hnodes, ?_, ?_, ?_⟩
    · intro x hx
      rcases (hadj x).mp hx with hold | rfl
      · exact List.mem_append_left _ (hA x hold)
      · exact List.mem_append_right _ (by simp)
    · intro k hk
      rcases List.mem_append.mp hk with hold | hnew
      · rcases hB k hold with ⟨x, hx, hkey⟩
        exact ⟨x, (hadj x).mpr (Or.inl hx), hkey⟩
      · rw [List.mem_singleton] at hnew
        subst hnew
        exact ⟨e, (hadj e).mpr (Or.inr rfl), rfl⟩
    · intro x1 hx1 x2 hx2 hkeq
      rcases (hadj x1).mp hx1 with h1 | h1 <;> rcases (hadj x2).mp hx2 with h2 | h2
      · exact hC x1 h1 x2 h2 hkeq
      · subst h2
        have hh := hA x1 h1
        rw [hkeq] at hh
        exact absurd hh hfresh2
      · subst h1
        have hh := hA x2 h2
        rw [← hkeq] at hh
        exact absurd hh hfresh2
      · rw [h1, h2]

/-- Every reachable graph satisfies the C9 invariant. -/
theorem gApply_c9Inv (ops : List GOp) : c9Inv (gApply ops) := by
  unfold gApply
  refine foldl_preserve c9Inv gStep ?_ ops graphEmptyM ?_
  · intro g op hg
    cases op with
    | ent n t s sid => exact addEntity_c9Inv g n t s sid hg
    | rel e => exact addRelationship_c9Inv g e hg
  · refine ⟨List.nodup_nil, ?_, ?_, ?_, ?_⟩ <;> intro p hp <;> simp [adjEdges, graphEmptyM] at hp

/-- Deduped edges come from the traversal. -/
theorem dedupEdges_subset (l : List GREdge) : ∀ (seen : List (List Char)) (x : GREdge),
    x ∈ dedupEdges l seen → x ∈ l := by
  induction l with
  | nil => intro seen x h; simp [dedupEdges] at h
  | cons e r ih =>
    intro seen x h
    rw [dedupEdges] at h
    split at h
    · exact List.mem_cons_of_mem _ (ih _ x h)
    · rcases List.mem_cons.mp h with rfl | hr
      · exact List.mem_cons_self _ _
      · exact List.mem_cons_of_mem _ (ih _ x hr)

/-- With per-key uniqueness, every edge whose key is not yet seen survives
the dedup. -/
theorem dedupEdges_complete (l : List GREdge)
    (huniq : ∀ a ∈ l, ∀ b ∈ l, edgeKey a = edgeKey b → a = b) :
    ∀ (seen : List (List Char)) (x : GREdge), x ∈ l → edgeKey x ∉ seen →
      x ∈ dedupEdges l seen := by
  induction l with
  | nil => intro seen x h; simp at h
  | cons e r ih =>
    intro seen x hx hs
    rw [dedupEdges]
    have huniq' : ∀ a ∈ r, ∀ b ∈ r, edgeKey a = edgeKey b → a = b := by
      intro a ha b hb
      exact huniq a (List.mem_cons_of_mem _ ha) b (List.mem_cons_of_mem _ hb)
    split
    · rename_i hseen
      rcases List.mem_cons.mp hx with rfl | hr
      · exact absurd (List.elem_iff.mp hseen) hs
      · exact ih huniq' seen x hr hs
    · rcases List.mem_cons.mp hx with rfl | hr
      · exact List.mem_cons_self _ _
      · by_cases hkeq : edgeKey x = edgeKey e
        · have hxe := huniq x (List.mem_cons_of_mem _ hr) e (List.mem_cons_self _ _) hkeq
          subst hxe
          exact List.mem_cons_self _ _
        · refine List.mem_cons_of_mem _ (ih huniq' _ x hr ?_)
          intro hmem
          rcases List.mem_cons.mp hmem with heq | hmem2
          · exact hkeq heq
          · exact hs hmem2

/-- The deduped keys are exactly the traversal keys outside `seen`, without
duplicates. -/
theorem dedupEdges_keys (l : List GREdge) : ∀ (seen : List (List Char)),
    ((dedupEdges l seen).map edgeKey).Nodup ∧
      ∀ k, k ∈ (dedupEdges l seen).map edgeKey ↔ k ∈ l.map edgeKey ∧ k ∉ seen := by
  induction l with
  | nil => intro seen; simp [dedupEdges]
  | cons e r ih =>
    intro seen
    rw [dedupEdges]
    split
    · rename_i hseen
      obtain ⟨ihn, ihm⟩ := ih seen
      refine ⟨ihn, fun k => ?_⟩
      rw [ihm k]
      simp only [List.map_cons, List.mem_cons]
      constructor
      · rintro ⟨hk, hks⟩
        exact ⟨Or.inr hk, hks⟩
      · rintro ⟨hk | hk, hks⟩
        · subst hk
          exact absurd (List.elem_iff.mp hseen) hks
        · exact ⟨hk, hks⟩
    · rename_i hseen
      obtain ⟨ihn, ihm⟩ := ih (edgeKey e :: seen)
      have hnotseen : edgeKey e ∉ seen := fun hmem => hseen (by simpa using List.elem_iff.mpr hmem)
      constructor
      · rw [List.map_cons, List.nodup_cons]
        refine ⟨fun hmem => ?_, ihn⟩
        exact ((ihm (edgeKey e)).mp hmem).2 (List.mem_cons_self _ _)
      · intro k
        rw [List.map_cons, List.mem_cons, ihm k, List.map_cons]
        constructor
        · rintro (rfl | ⟨hk, hks⟩)
          · exact ⟨List.mem_cons_self _ _, hnotseen⟩
          · exact ⟨List.mem_cons_of_mem _ hk, fun hmem => hks (List.mem_cons_of_mem _ hmem)⟩
        · rintro ⟨hk, hks⟩
          by_cases hke : k = edgeKey e
          · exact Or.inl hke
          · rcases List.mem_cons.mp hk with rfl | hk2
            · exact absurd rfl hke
            · refine Or.inr ⟨hk2, ?_⟩
              intro hmem
              rcases List.mem_cons.mp hmem with heq | hmem2
              · exact hke heq
              · exact hks hmem2

/-- Loading node snapshots with fresh, duplicate-free names appends them in
order and leaves the edge structures empty. -/
theorem loadNodes_spec (sns : List SEntityNode) : ∀ (g0 : EntityGraphM),
    (sns.map SEntityNode.name).Nodup →
    (∀ sn ∈ sns, sn.name ∉ g0.nodes.map Prod.fst) →
    (sns.foldl loadNodeStep g0).nodes =
      g0.nodes ++ sns.map
        (fun sn => (sn.name, GEntityNode.mk sn.name sn.type sn.summary (listToSet sn.sessionIds))) ∧
    (sns.foldl loadNodeStep g0).adjacency = g0.adjacency ∧
    (sns.foldl loadNodeStep g0).edgeSet = g0.edgeSet := by
  induction sns with
  | nil => intro g0 _ _; simp
  | cons sn rest ih =>
    intro g0 hnd hfresh
    rw [List.foldl_cons]
    have hstep_nodes : (loadNodeStep g0 sn).nodes =
        g0.nodes ++ [(sn.name, GEntityNode.mk sn.name sn.type sn.summary (listToSet sn.sessionIds))] := by
      unfold loadNodeStep
      dsimp only
      unfold alSet
      rw [if_neg]
      intro hany
      rcases List.any_eq_true.mp hany with ⟨p, hp, hbeq⟩
      exact hfresh sn (List.mem_cons_self _ _)
        (List.mem_map.mpr ⟨p, hp, eq_of_beq hbeq⟩)
    have hstep_edges : (loadNodeStep g0 sn).adjacency = g0.adjacency ∧
        (loadNodeStep g0 sn).edgeSet = g0.edgeSet := by
      unfold loadNodeStep
      exact ⟨rfl, rfl⟩
    have hrest := ih (loadNodeStep g0 sn)
      (by
        rw [List.map_cons, List.nodup_cons] at hnd
        exact hnd.2)
      (by
        intro x hx
        rw [hstep_nodes, List.map_append, List.mem_append]
        rintro (hold | hnew)
        · exact hfresh x (List.mem_cons_of_mem _ hx) hold
        · rw [List.map_cons, List.nodup_cons] at hnd
          simp only [List.map_cons, List.map_nil, List.mem_singleton] at hnew
          exact hnd.1 (hnew ▸ List.mem_map.mpr ⟨x, hx, rfl⟩))
    refine ⟨?_, ?_, ?_⟩
    · rw [hrest.1, hstep_nodes, List.append_assoc]
      rfl
    · rw [hrest.2.1, hstep_edges.1]
    · rw [hrest.2.2, hstep_edges.2]

/-- Folding `addRelationship` over edges with duplicate-free, fresh keys
records every key and exactly those edges, leaving nodes untouched. -/
theorem loadEdges_spec (es : List GREdge) : ∀ (g0 : EntityGraphM),
    ((es.map edgeKey).Nodup) → (∀ e ∈ es, edgeKey e ∉ g0.edgeSet) →
    (es.foldl addRelationship g0).nodes = g0.nodes ∧
    (es.foldl addRelationship g0).edgeSet = g0.edgeSet ++ es.map edgeKey ∧
    (∀ x, x ∈ adjEdges (es.foldl addRelationship g0) ↔ x ∈ adjEdges g0 ∨ x ∈ es) := by
  induction es with
  | nil => intro g0 _ _; simp
  | cons e rest ih =>
    intro g0 hnd hfresh
    rw [List.foldl_cons]
    have hcont : (g0.edgeSet.contains (edgeKey e)) = false := by
      rw [← Bool.not_eq_true]
      intro hc
      exact hfresh e (List.mem_cons_self _ _) (List.elem_iff.mp hc)
    have hstep : addRelationship g0 e =
        { g0 with
            edgeSet := g0.edgeSet ++ [edgeKey e]
            adjacency := alPush (alPush g0.adjacency e.source e) e.target e } := by
      unfold addRelationship
      rw [if_neg (by rw [hcont]; exact Bool.false_ne_true)]
    have hadj1 : ∀ x, x ∈ adjEdges (addRelationship g0 e) ↔ x ∈ adjEdges g0 ∨ x = e := by
      intro x
      rw [hstep]
      unfold adjEdges
      dsimp only
      rw [mem_alPush, mem_alPush]
      tauto
    have hrest := ih (addRelationship g0 e)
      (by
        rw [List.map_cons, List.nodup_cons] at hnd
        exact hnd.2)
      (by
        intro x hx
        rw [hstep]
        dsimp only
        rw [List.mem_append]
        rintro (hold | hnew)
        · exact hfresh x (List.mem_cons_of_mem _ hx) hold
        · rw [List.mem_singleton] at hnew
          rw [List.map_cons, List.nodup_cons] at hnd
          exact hnd.1 (hnew ▸ List.mem_map.mpr ⟨x, hx, rfl⟩))
    refine ⟨?_, ?_, ?_⟩
    · rw [hrest.1, hstep]
    · rw [hrest.2.1, hstep]
      dsimp only
      rw [List.append_assoc]
      rfl
    · intro x
      rw [hrest.2.2 x, hadj1 x, List.mem_cons]
      tauto

/-- C9 (confirmed): for every reachable entity graph, `load(save(G))` equals
`G` under entity equality (name, type, summary, session-id set — the stored
node lists are literally equal, in insertion order) and edge equality
(source, target, relation, date, sessionId — the adjacency pools hold the
same edge records), with an identical edge-key set and node count. -/
theorem c9_save_load_roundtrip (ops : List GOp) :
    (gLoad (gSave (gApply ops))).nodes = (gApply ops).nodes ∧
      (∀ k, k ∈ (gLoad (gSave (gApply ops))).edgeSet ↔ k ∈ (gApply ops).edgeSet) ∧
      (∀ x, x ∈ adjEdges (gLoad (gSave (gApply ops))) ↔ x ∈ adjEdges (gApply ops)) ∧
      (gLoad (gSave (gApply ops))).nodes.length = (gApply ops).nodes.length := by
  obtain ⟨hkeys, hnodes, hA, hB, hC⟩ := gApply_c9Inv ops
  set g : EntityGraphM := gApply ops with hg
  set sns : List SEntityNode :=
    g.nodes.map (fun p => SEntityNode.mk p.2.name p.2.type p.2.summary p.2.sessionIds) with hsns
  set E : List GREdge := dedupEdges (adjEdges g) [] with hE
  have hunfold : gLoad (gSave g) = E.foldl addRelationship (sns.foldl loadNodeStep graphEmptyM) := by
    unfold gLoad gSave
    rfl
  have hnames : sns.map SEntityNode.name = g.nodes.map Prod.fst := by
    rw [hsns, List.map_map]
    apply List.map_congr_left
    intro p hp
    exact ((hnodes p hp).1).symm
  have hload1 := loadNodes_spec sns graphEmptyM (by rw [hnames]; exact hkeys)
    (by intro sn _ hmem; simp [graphEmptyM] at hmem)
  have hnodes_eq : sns.map
      (fun sn => (sn.name, GEntityNode.mk sn.name sn.type sn.summary (listToSet sn.sessionIds))) =
      g.nodes := by
    rw [hsns, List.map_map]
    conv_rhs => rw [← List.map_id g.nodes]
    apply List.map_congr_left
    intro p hp
    obtain ⟨h1, h2⟩ := hnodes p hp
    obtain ⟨pf, ps⟩ := p
    dsimp only [Function.comp, id] at h1 h2 ⊢
    rw [listToSet_eq_self _ h2, h1]
  have hg1nodes : (sns.foldl loadNodeStep graphEmptyM).nodes = g.nodes := by
    rw [hload1.1, hnodes_eq]
    rfl
  have hg1adj : adjEdges (sns.foldl loadNodeStep graphEmptyM) = [] := by
    unfold adjEdges
    rw [hload1.2.1]
    rfl
  have hg1es : (sns.foldl loadNodeStep graphEmptyM).edgeSet = [] := by
    rw [hload1.2.2]
    rfl
  have hEkeys := dedupEdges_keys (adjEdges g) []
  have hEmem : ∀ x, x ∈ E ↔ x ∈ adjEdges g := by
    intro x
    constructor
    · exact dedupEdges_subset _ _ x
    · intro hx
      exact dedupEdges_complete _ hC _ x hx (by simp)
  have hload2 := loadEdges_spec E (sns.foldl loadNodeStep graphEmptyM) hEkeys.1
    (by intro e _ hmem; rw [hg1es] at hmem; simp at hmem)
  have hkeyset : ∀ k, k ∈ (adjEdges g).map edgeKey ↔ k ∈ g.edgeSet := by
    intro k
    constructor
    · intro hk
      rcases List.mem_map.mp hk with ⟨e, he, rfl⟩
      exact hA e he
    · intro hk
      rcases hB k hk with ⟨e, he, hkey⟩
      exact List.mem_map.mpr ⟨e, he, hkey⟩
  refine ⟨?_, ?_, ?_, ?_⟩
  · rw [hunfold, hload2.1, hg1nodes]
  · intro k
    rw [hunfold, hload2.2.1, hg1es, List.nil_append]
    rw [(hEkeys.2 k)]
    simp only [List.not_mem_nil, not_false_iff, and_true]
    exact hkeyset k
  · intro x
    rw [hunfold, hload2.2.2 x, hg1adj]
    simp only [List.not_mem_nil, false_or]
    exact hEmem x
  · rw [hunfold, hload2.1, hg1nodes]

/-- A row as returned by the hybrid-search SQL of `PgStore.search`
(src/src/providers/rag/pg.ts lines 143-161): `vector_score` is
`1 - (embedding <=> query)` computed by the database, `bm25_score` the
`ts_rank` value (0 for rows absent from the lexical CTE). -/
structure PgRow where
  content : List Char
  sessionId : List Char
  chunkIndex : Int
  vectorScore : Rat
  bm25Raw : Rat
  date : Option (List Char)
  eventDate : Option (List Char)
deriving DecidableEq

/-- A search result (src/src/providers/rag/search.ts interface, as consumed
by pg.ts lines 171-188 and the reranker). -/
structure SearchResult where
  content : List Char
  score : Rat
  vectorScore : Rat
  bm25Score : Rat
  rerankScore : Option Rat
  sessionId : List Char
  chunkIndex : Int
  date : Option (List Char)
  eventDate : Option (List Char)
deriving DecidableEq

/-- The max-lexical-score fold of pg.ts lines 165-169. -/
def maxBm25 (rows : List PgRow) : Rat :=
  rows.foldl (fun m r => if r.bm25Raw > m then r.bm25Raw else m) 0

/-- Row-to-result mapping of pg.ts lines 171-188: normalize the lexical
score by the maximum (0 when it is 0) and fuse with weights 0.7/0.3. -/
def mkResult (m : Rat) (row : PgRow) : SearchResult :=
  { content := row.content
    score := 7/10 * row.vectorScore + 3/10 * (if m > 0 then row.bm25Raw / m else 0)
    vectorScore := row.vectorScore
    bm25Score := if m > 0 then row.bm25Raw / m else 0
    rerankScore := none
    sessionId := row.sessionId
    chunkIndex := row.chunkIndex
    date := row.date
    eventDate := row.eventDate }

/-- Descending-by-score comparison used by `results.sort((a, b) => b.score - a.score)`. -/
def scoreGE (a b : SearchResult) : Prop := b.score ≤ a.score

instance : DecidableRel scoreGE := fun a b => inferInstanceAs (Decidable (b.score ≤ a.score))

instance : IsTotal SearchResult scoreGE := ⟨fun a b => le_total b.score a.score⟩

instance : IsTrans SearchResult scoreGE := ⟨fun _ _ _ h1 h2 => le_trans h2 h1⟩

/-- Model of the in-process part of `PgStore.search` (pg.ts lines 163-191):
empty row set short-circuits, otherwise map and sort descending by fused
score. -/
def pgSearch (rows : List PgRow) : List SearchResult :=
  if rows = [] then []
  else List.insertionSort scoreGE (rows.map (mkResult (maxBm25 rows)))

/-- The dot product of two rational vectors. -/
def dotQ : List Rat → List Rat → Rat
  | [], _ => 0
  | _, [] => 0
  | a :: as2, b :: bs => a * b + dotQ as2 bs

/-- Modelled from pgvector semantics: `embedding <=> query` is the cosine
distance `1 - cos`, so the SQL `vector_score = 1 - (embedding <=> query)` is
the cosine similarity; for unit-norm vectors (`dotQ v v = 1`) that is
exactly the dot product. -/
def cosineSimUnit (a b : List Rat) : Rat := dotQ a b

/-- The fold computing the max never drops below its accumulator. -/
theorem maxBm25_ge_init (rows : List PgRow) : ∀ (m : Rat),
    m ≤ rows.foldl (fun m r => if r.bm25Raw > m then r.bm25Raw else m) m := by
  induction rows with
  | nil => intro m; exact le_refl m
  | cons r rest ih =>
    intro m
    rw [List.foldl_cons]
    refine le_trans ?_ (ih _)
    split
    · rename_i hgt
      exact le_of_lt hgt
    · exact le_refl m

/-- Every row's raw lexical score is bounded by the computed maximum. -/
theorem maxBm25_ge_mem (rows : List PgRow) : ∀ (m : Rat) (r : PgRow), r ∈ rows →
    r.bm25Raw ≤ rows.foldl (fun m r => if r.bm25Raw > m then r.bm25Raw else m) m := by
  induction rows with
  | nil => intro m r h; simp at h
  | cons r0 rest ih =>
    intro m r h
    rw [List.foldl_cons]
    rcases List.mem_cons.mp h with rfl | hmem
    · refine le_trans ?_ (maxBm25_ge_init rest _)
      split
      · exact le_refl _
      · rename_i hngt
        exact le_of_not_lt hngt
    · exact ih _ r hmem

/-- The computed maximum is non-negative. -/
theorem maxBm25_nonneg (rows : List PgRow) : 0 ≤ maxBm25 rows :=
  maxBm25_ge_init rows 0

/-- C2 (corrected): under the database guarantees (`vector_score` is a
cosine similarity in [-1, 1]; `ts_rank` is non-negative), every result of
`PgStore.search` satisfies `-1 ≤ vectorScore ≤ 1`, `0 ≤ bm25Score ≤ 1` and
`score = 0.7·vectorScore + 0.3·bm25Score` with `bm25Score` the raw lexical
score divided by the maximum of the result set (0 if all are zero), and the
output is the score-descending sort of exactly those fused rows. -/
theorem c2_pgSearch_scores (rows : List PgRow)
    (hrows : ∀ r ∈ rows, -1 ≤ r.vectorScore ∧ r.vectorScore ≤ 1 ∧ 0 ≤ r.bm25Raw) :
    List.Sorted scoreGE (pgSearch rows) ∧
      (pgSearch rows).Perm (rows.map (mkResult (maxBm25 rows))) ∧
      ∀ res ∈ pgSearch rows,
        -1 ≤ res.vectorScore ∧ res.vectorScore ≤ 1 ∧
          0 ≤ res.bm25Score ∧ res.bm25Score ≤ 1 ∧
          res.score = 7/10 * res.vectorScore + 3/10 * res.bm25Score := by
  unfold pgSearch
  split
  · rename_i hnil
    subst hnil
    refine ⟨List.sorted_nil, by simp, ?_⟩
    intro res hres
    simp at hres
  · rename_i hne
    refine ⟨List.sorted_insertionSort scoreGE _, List.perm_insertionSort scoreGE _, ?_⟩
    intro res hres
    have hres2 : res ∈ rows.map (mkResult (maxBm25 rows)) :=
      ((List.perm_insertionSort scoreGE _).mem_iff).mp hres
    rcases List.mem_map.mp hres2 with ⟨row, hrow, rfl⟩
    obtain ⟨h1, h2, h3⟩ := hrows row hrow
    unfold mkResult
    dsimp only
    refine ⟨h1, h2, ?_, ?_, rfl⟩
    · split
      · rename_i hm
        exact div_nonneg h3 (le_of_lt hm)
      · exact le_refl 0
    · split
      · rename_i hm
        rw [div_le_one hm]
        exact maxBm25_ge_mem rows 0 row hrow
      · exact zero_le_one

/-- The single row produced by a chunk embedding opposite to the query
embedding: the database cosine similarity is exactly -1. -/
def negRow : PgRow :=
  { content := cl (r"chunk")
    sessionId := cl (r"s1")
    chunkIndex := 0
    vectorScore := cosineSimUnit [1, 0] [-1, 0]
    bm25Raw := 0
    date := none
    eventDate := none }

/-- C2 counterexample: with unit-norm embeddings `[1, 0]` for the stored
chunk and `[-1, 0]` for the query, the database returns
`vector_score = cos = -1`, and `PgStore.search` passes it through: the
claimed lower bound `0 ≤ vectorScore` is violated (the score itself becomes
-0.7). -/
theorem c2_counterexample :
    dotQ [1, 0] [1, 0] = 1 ∧ dotQ [-1, 0] [-1, 0] = 1 ∧
      cosineSimUnit [1, 0] [-1, 0] = -1 ∧
      (pgSearch [negRow]).map (fun res => res.vectorScore) = [-1] ∧
      (pgSearch [negRow]).map (fun res => res.score) = [-7/10] ∧
      ¬ (0 ≤ (-1 : Rat)) := by
  refine ⟨by norm_num [dotQ], by norm_num [dotQ], by norm_num [cosineSimUnit, dotQ], ?_, ?_, by norm_num⟩
  · simp only [pgSearch, List.insertionSort, List.orderedInsert, List.map_cons, List.map_nil,
      mkResult, maxBm25, List.foldl_cons, List.foldl_nil, negRow, cosineSimUnit, dotQ]
    norm_num
  · simp only [pgSearch, List.insertionSort, List.orderedInsert, List.map_cons, List.map_nil,
      mkResult, maxBm25, List.foldl_cons, List.foldl_nil, negRow, cosineSimUnit, dotQ]
    norm_num

/-- Witness for C2: the theorem applied to two concrete rows. -/
theorem c2_pgSearch_scores_witness :
    List.Sorted scoreGE (pgSearch [
      PgRow.mk (cl (r"a")) (cl (r"s1")) 0 (1/2) 2 none none,
      PgRow.mk (cl (r"b")) (cl (r"s1")) 1 1 0 none none]) ∧
      (pgSearch [
        PgRow.mk (cl (r"a")) (cl (r"s1")) 0 (1/2) 2 none none,
        PgRow.mk (cl (r"b")) (cl (r"s1")) 1 1 0 none none]).Perm
        ([PgRow.mk (cl (r"a")) (cl (r"s1")) 0 (1/2) 2 none none,
          PgRow.mk (cl (r"b")) (cl (r"s1")) 1 1 0 none none].map
          (mkResult (maxBm25 [
            PgRow.mk (cl (r"a")) (cl (r"s1")) 0 (1/2) 2 none none,
            PgRow.mk (cl (r"b")) (cl (r"s1")) 1 1 0 none none]))) ∧
      ∀ res ∈ pgSearch [
          PgRow.mk (cl (r"a")) (cl (r"s1")) 0 (1/2) 2 none none,
          PgRow.mk (cl (r"b")) (cl (r"s1")) 1 1 0 none none],
        -1 ≤ res.vectorScore ∧ res.vectorScore ≤ 1 ∧
          0 ≤ res.bm25Score ∧ res.bm25Score ≤ 1 ∧
          res.score = 7/10 * res.vectorScore + 3/10 * res.bm25Score :=
  c2_pgSearch_scores _ (by rintro r hr; fin_cases hr <;> norm_num)

/-- Opening bracket. -/
def lbrk : Char := Char.ofNat 91

/-- Closing bracket. -/
def rbrk : Char := Char.ofNat 93

/-- Model of `text.match(/\[[\s\S]*\]/)`: leftmost `[` that is followed by a
`]`, greedy to the last `]` of the whole text. -/
def firstBlock (s : List Char) : Option (List Char) :=
  match firstIdxAux [lbrk] s 0 with
  | none => none
  | some i =>
    let j := jsLastIndexOf s [rbrk] s.length
    if (i : Int) < j then some ((s.drop i).take (j.toNat + 1 - i)) else none

/-- One parsed `{index, score}` pair of the reranker JSON. -/
structure RerankScore where
  index : Int
  score : Rat
deriving DecidableEq

/-- Outcome of one reranker LLM call: a transport error or an output text. -/
inductive LLMOutcome where
  | err
  | ok (text : List Char)

/-- `scoreMap.get(i) ?? 0` where later JSON entries overwrite earlier ones. -/
def scoreFor (scores : List RerankScore) (i : Int) : Rat :=
  ((scores.reverse.find? (fun s => s.index == i)).map RerankScore.score).getD 0

/-- Descending comparison on attached rerank scores. -/
def rerankGE (a b : SearchResult × Rat) : Prop := b.2 ≤ a.2

instance : DecidableRel rerankGE := fun a b => inferInstanceAs (Decidable (b.2 ≤ a.2))

/-- The success path of `rerankResults` (src/unnamed/part_003 lines
238-253): attach scores by candidate index, sort descending, take `k`, remap
`score := rerankScore / 10`. -/
def rerankSuccess (scores : List RerankScore) (results : List SearchResult) (k : Nat) :
    List SearchResult :=
  ((List.insertionSort rerankGE
      (results.enum.map (fun p => (p.2, scoreFor scores (p.1 : Int))))).take k).map
    (fun p => { p.1 with rerankScore := some p.2, score := p.2 / 10 })

/-- The retry loop of `rerankResults` (part_003 lines 220-264), with the LLM
call abstracted as an outcome per attempt (`out`) and `JSON.parse` (plus the
subsequent iteration, which throws on non-array values) abstracted as `jp`
(`none` models a throw).  The prompt — including the query-type instruction —
only shapes the text handed to the abstracted LLM call. -/
def rerankGo (jp : List Char → Option (List RerankScore)) (out : Nat → LLMOutcome)
    (results : List SearchResult) (k : Nat) : Nat → Nat → List SearchResult
  | 0, _ => results.take k
  | fuel + 1, a =>
    match out a with
    | LLMOutcome.err =>
      if a < 2 then rerankGo jp out results k fuel (a + 1) else results.take k
    | LLMOutcome.ok t =>
      match firstBlock t with
      | none =>
        if a < 2 then rerankGo jp out results k fuel (a + 1) else results.take k
      | some b =>
        match jp b with
        | none =>
          if a < 2 then rerankGo jp out results k fuel (a + 1) else results.take k
        | some scores => rerankSuccess scores results k

/-- Model of `rerankResults` (part_003 lines 190-265): short candidate lists
are returned as-is; otherwise up to three attempts are made. -/
def rerankResultsM (jp : List Char → Option (List RerankScore)) (out : Nat → LLMOutcome)
    (results : List SearchResult) (k : Nat) : List SearchResult :=
  if results.length ≤ k then results else rerankGo jp out results k 3 0

/-- An attempt fails when the call errors, the output has no `[...]` block,
or the block does not parse as JSON. -/
def attemptFails (jp : List Char → Option (List RerankScore)) : LLMOutcome → Prop
  | LLMOutcome.err => True
  | LLMOutcome.ok t =>
    match firstBlock t with
    | none => True
    | some b => jp b = none

/-- A failing attempt either retries or returns the fallback. -/
theorem rerankGo_fail (jp : List Char → Option (List RerankScore)) (out : Nat → LLMOutcome)
    (results : List SearchResult) (k : Nat) (fuel a : Nat)
    (hfa : attemptFails jp (out a))
    (hnext : a < 2 → rerankGo jp out results k fuel (a + 1) = results.take k) :
    rerankGo jp out results k (fuel + 1) a = results.take k := by
  rw [rerankGo]
  cases hout : out a with
  | err =>
    dsimp only
    by_cases ha : a < 2
    · rw [if_pos ha]
      exact hnext ha
    · rw [if_neg ha]
  | ok t =>
    rw [hout] at hfa
    unfold attemptFails at hfa
    dsimp only at hfa
    dsimp only
    cases hb : firstBlock t with
    | none =>
      dsimp only
      by_cases ha : a < 2
      · rw [if_pos ha]
        exact hnext ha
      · rw [if_neg ha]
    | some b =>
      dsimp only
      rw [hb] at hfa
      dsimp only at hfa
      rw [hfa]
      dsimp only
      by_cases ha : a < 2
      · rw [if_pos ha]
        exact hnext ha
      · rw [if_neg ha]

/-- C6 (confirmed): when the candidate list is longer than `k` and all three
reranker attempts fail — transport error, no `[...]` block, or an
unparseable block — `rerankResults` returns exactly the first `k` candidates
in their original hybrid order, without raising (the model is a total
function; every exception path in the source is caught by the retry loop). -/
theorem c6_rerank_fallback (jp : List Char → Option (List RerankScore))
    (out : Nat → LLMOutcome) (results : List SearchResult) (k : Nat)
    (hk : k < results.length) (hfail : ∀ a, a < 3 → attemptFails jp (out a)) :
    rerankResultsM jp out results k = results.take k := by
  unfold rerankResultsM
  rw [if_neg (by omega)]
  have h2 : rerankGo jp out results k 1 2 = results.take k :=
    rerankGo_fail jp out results k 0 2 (hfail 2 (by omega)) (fun h => absurd h (by omega))
  have h1 : rerankGo jp out results k 2 1 = results.take k :=
    rerankGo_fail jp out results k 1 1 (hfail 1 (by omega)) (fun _ => h2)
  exact rerankGo_fail jp out results k 2 0 (hfail 0 (by omega)) (fun _ => h1)

/-- A concrete search result for witnesses. -/
def srA : SearchResult :=
  ⟨cl (r"alpha"), 1, 1, 0, none, cl (r"s1"), 0, none, none⟩

/-- A second concrete search result for witnesses. -/
def srB : SearchResult :=
  ⟨cl (r"beta"), 1/2, 1/2, 0, none, cl (r"s1"), 1, none, none⟩

/-- Witness for C6: three transport errors on a two-element candidate list
with `k = 1` return the first candidate. -/
theorem c6_rerank_fallback_witness :
    rerankResultsM (fun _ => none) (fun _ => LLMOutcome.err) [srA, srB] 1 = [srA, srB].take 1 :=
  c6_rerank_fallback (fun _ => none) (fun _ => LLMOutcome.err) [srA, srB] 1
    (by simp) (fun _ _ => trivial)

/-- Literal alternative matched between two `\b` word boundaries. -/
def litBounded (s alt : List Char) : Bool :=
  (List.range (s.length + 1)).any
    (fun i => patAt s alt i && boundaryAt s i && boundaryAt s (i + alt.length))

/-- `\b(alt1|alt2|…)\b`.test for a list of literal alternatives. -/
def matchesAlts (alts : List (List Char)) (s : List Char) : Bool :=
  alts.any (litBounded s)

/-- The temporal regex of `detectQueryType` (src/unnamed/part_003 line 153),
its alternation expanded into literals. -/
def matchesTemporal (s : List Char) : Bool :=
  matchesAlts [cl (r"when"), cl (r"what date"), cl (r"what time"), cl (r"what day"),
    cl (r"what month"), cl (r"what year"), cl (r"how long ago"), cl (r"how recently"),
    cl (r"last time"), cl (r"first time"), cl (r"before"), cl (r"after")] s

/-- The knowledge-update regex (line 156). -/
def matchesKnowledge (s : List Char) : Bool :=
  matchesAlts [cl (r"change"), cl (r"update"), cl (r"move"), cl (r"switch"), cl (r"new"),
    cl (r"current"), cl (r"now"), cl (r"still"), cl (r"anymore"), cl (r"used to"),
    cl (r"latest")] s

/-- The preference regex (line 162). -/
def matchesPreference (s : List Char) : Bool :=
  matchesAlts [cl (r"favorite"), cl (r"prefer"), cl (r"like"), cl (r"enjoy"), cl (r"love"),
    cl (r"hate"), cl (r"dislike"), cl (r"opinion")] s

/-- The assistant-recall regex (line 165), its alternation expanded. -/
def matchesRecall (s : List Char) : Bool :=
  matchesAlts [cl (r"you said"), cl (r"you told"), cl (r"you recommended"),
    cl (r"you suggested"), cl (r"you mentioned"), cl (r"did you"), cl (r"your advice"),
    cl (r"your recommendation"), cl (r"your suggestion")] s

/-- The factual regex (line 168). -/
def matchesFactual (s : List Char) : Bool :=
  matchesAlts [cl (r"who"), cl (r"what"), cl (r"where"), cl (r"which"), cl (r"name"),
    cl (r"tell me about")] s

/-- Regex `.` (not newline, CR, LS or PS). -/
def notNL (c : Char) : Bool :=
  !(c == nlc) && !(c == Char.ofNat 13) && !(c.toNat == 8232) && !(c.toNat == 8233)

/-- A non-empty `.+` segment spanning `[a, b)`. -/
def segOk (s : List Char) (a b : Nat) : Bool :=
  decide (a < b) && decide (b ≤ s.length) && ((s.drop a).take (b - a)).all notNL

/-- A non-empty `\w+` segment spanning `[a, b)`. -/
def wordSeg (s : List Char) (a b : Nat) : Bool :=
  decide (a < b) && decide (b ≤ s.length) && ((s.drop a).take (b - a)).all isWordChar

/-- `\bwhat .+ (of|for) .+ (the|my|a) .+\b`.test (part_003 line 159, first
alternative): a decomposition into the literal pieces and three non-empty
`.+` segments, with the trailing `\b`. -/
def matchesMultiHop1 (s : List Char) : Bool :=
  let n := s.length
  (List.range (n + 1)).any (fun i =>
    boundaryAt s i && patAt s (cl (r"what ")) i &&
      ([cl (r" of "), cl (r" for ")]).any (fun d1 =>
        (List.range (n + 1)).any (fun a =>
          patAt s d1 a && segOk s (i + 5) a &&
            ([cl (r" the "), cl (r" my "), cl (r" a ")]).any (fun d2 =>
              (List.range (n + 1)).any (fun b2 =>
                patAt s d2 b2 && segOk s (a + d1.length) b2 &&
                  (List.range (n + 1)).any (fun q =>
                    segOk s (b2 + d2.length) q && boundaryAt s q))))))

/-- `\b\w+'s \w+'s\b`.test (part_003 line 159, second alternative). -/
def matchesMultiHop2 (s : List Char) : Bool :=
  let n := s.length
  (List.range (n + 1)).any (fun i =>
    boundaryAt s i &&
      (List.range (n + 1)).any (fun j =>
        wordSeg s i j && patAt s [apoc, Char.ofNat 115, spc] j &&
          (List.range (n + 1)).any (fun k =>
            wordSeg s (j + 3) k && patAt s [apoc, Char.ofNat 115] k &&
              boundaryAt s (k + 2))))

/-- Model of `detectQueryType` (part_003 lines 151-172): lowercase the query
and test the six regexes in source order, falling back to `general`. -/
def detectQueryType (q : List Char) : List Char :=
  let s := lowStr q
  if matchesTemporal s then cl (r"temporal")
  else if matchesKnowledge s then cl (r"knowledge-update")
  else if matchesMultiHop1 s || matchesMultiHop2 s then cl (r"multi-hop")
  else if matchesPreference s then cl (r"preference")
  else if matchesRecall s then cl (r"assistant-recall")
  else if matchesFactual s then cl (r"factual")
  else cl (r"general")

/-- The spec's fixed priority order (spec section 4.7 and glossary): each
class paired with its glossary matcher. -/
def classPriority : List (List Char × (List Char → Bool)) :=
  [(cl (r"temporal"), matchesTemporal),
   (cl (r"knowledge-update"), matchesKnowledge),
   (cl (r"multi-hop"), fun s => matchesMultiHop1 s || matchesMultiHop2 s),
   (cl (r"preference"), matchesPreference),
   (cl (r"assistant-recall"), matchesRecall),
   (cl (r"factual"), matchesFactual)]

/-- The spec-side classifier: the first matching class in priority order,
else `general` (case-insensitive via the lowercased query). -/
def specClassify (q : List Char) : List Char :=
  match classPriority.find? (fun p => p.2 (lowStr q)) with
  | some p => p.1
  | none => cl (r"general")

/-- C8 (confirmed): `detectQueryType` returns exactly the first matching
class in the fixed priority order temporal, knowledge-update, multi-hop,
preference, assistant-recall, factual, falling back to `general`, where each
class is decided case-insensitively by its glossary regex. -/
theorem c8_classifier_priority (q : List Char) : detectQueryType q = specClassify q := by
  unfold detectQueryType specClassify classPriority
  cases h1 : matchesTemporal (lowStr q) <;>
    cases h2 : matchesKnowledge (lowStr q) <;>
      cases h3 : (matchesMultiHop1 (lowStr q) || matchesMultiHop2 (lowStr q)) <;>
        cases h4 : matchesPreference (lowStr q) <;>
          cases h5 : matchesRecall (lowStr q) <;>
            cases h6 : matchesFactual (lowStr q) <;>
              simp [List.find?, h1, h2, h3, h4, h5, h6]

example : detectQueryType (cl (r"when did I go")) = cl (r"temporal") := by decide
example : detectQueryType (cl (r"I LIKE cats")) = cl (r"preference") := by decide
example : detectQueryType (cl (r"hello age")) = cl (r"general"):= by decide
example : detectQueryType (cl (r"what brand of car the user has")) = cl (r"multi-hop") := by decide

/-- A chunk as stored by the hybrid search engine (the `Chunk` interface of
src/providers/rag/search.ts, used by part_002; `metadata` is an opaque map
the claims never inspect and is omitted). -/
structure EChunk where
  id : List Char
  content : List Char
  sessionId : List Char
  chunkIndex : Nat
  embedding : List Rat
  date : Option (List Char)
  eventDate : Option (List Char)
deriving DecidableEq

/-- The per-container chunk store of the engine. -/
def chunksOf (eng : List (List Char × List EChunk)) (tag : List Char) : List EChunk :=
  (alFind eng tag).getD []

/-- Upsert one chunk by id. -/
def upsertChunk (l : List EChunk) (c : EChunk) : List EChunk :=
  if l.any (fun d => d.id == c.id) then l.map (fun d => if d.id == c.id then c else d)
  else l ++ [c]

/-- Modelled from the spec (section 4.6 `addChunks`): upsert by `id`
(src/providers/rag/search.ts is not under src/; only its callers are). -/
def engAddChunks (eng : List (List Char × List EChunk)) (tag : List Char)
    (cs : List EChunk) : List (List Char × List EChunk) :=
  alSet eng tag (cs.foldl upsertChunk (chunksOf eng tag))

/-- Modelled from the spec (section 4.6 `hasData`): whether the container
holds any chunk. -/
def engHasData (eng : List (List Char × List EChunk)) (tag : List Char) : Bool :=
  !(chunksOf eng tag).isEmpty

/-- Modelled from the spec (section 4.6 `clear(tag)`): drop the container's
chunks. -/
def engClear (eng : List (List Char × List EChunk)) (tag : List Char) :
    List (List Char × List EChunk) :=
  eng.filter (fun p => !(p.1 == tag))

/-- Modelled from the spec (sections 4.6 and 4.9): `save` returns the
container's chunk snapshot, or nothing when it is empty (the provider's
`if (searchData)` guard at part_002 line 120). -/
def engSave (eng : List (List Char × List EChunk)) (tag : List Char) : Option (List EChunk) :=
  if (chunksOf eng tag).isEmpty then none else some (chunksOf eng tag)

/-- Modelled from the spec (section 4.9): `load` installs the snapshot
chunks for the container. -/
def engLoad (eng : List (List Char × List EChunk)) (tag : List Char) (cs : List EChunk) :
    List (List Char × List EChunk) :=
  alSet eng tag cs

/-- The result record built from a stored chunk.  Modelled from the spec
(section 4.6 `search`): the hybrid ranking (cosine plus normalized lexical
score) only orders the returned chunks; the claims settled here depend only
on which chunks are returned, so the stored order stands in for the ranking
and the component scores are not modelled. -/
def chunkResult (c : EChunk) : SearchResult :=
  { content := c.content
    score := 0
    vectorScore := 0
    bm25Score := 0
    rerankScore := none
    sessionId := c.sessionId
    chunkIndex := (c.chunkIndex : Int)
    date := c.date
    eventDate := c.eventDate }

/-- Modelled from the spec (section 4.6 `search`): up to `limit` of the
container's chunks as results. -/
def engSearch (eng : List (List Char × List EChunk)) (tag : List Char) (limit : Nat) :
    List SearchResult :=
  ((chunksOf eng tag).take limit).map chunkResult

/-- The provider state: in-memory engine and graphs, plus the on-disk cache
files `search.json` / `graph.json` per container tag (part_002 lines 76-83
and the `./data/cache/rag` layout). -/
structure RAGState where
  eng : List (List Char × List EChunk)
  graphs : List (List Char × EntityGraphM)
  fsSearch : List (List Char × List EChunk)
  fsGraph : List (List Char × SerializedGraphM)
deriving DecidableEq

/-- A freshly initialized provider with an empty cache directory. -/
def ragInit : RAGState := ⟨[], [], [], []⟩

/-- Map deletion. -/
def alRemove {α : Type} (l : List (List Char × α)) (k : List Char) : List (List Char × α) :=
  l.filter (fun p => !(p.1 == k))

/-- Model of `saveToCache` (part_002 lines 115-131): write `search.json`
when the engine has data for the tag, and `graph.json` when the graph has
nodes. -/
def saveToCache (st : RAGState) (tag : List Char) : RAGState :=
  let fs1 :=
    match engSave st.eng tag with
    | some cs => alSet st.fsSearch tag cs
    | none => st.fsSearch
  let fs2 :=
    match alFind st.graphs tag with
    | some g => if 0 < g.nodes.length then alSet st.fsGraph tag (gSave g) else st.fsGraph
    | none => st.fsGraph
  { st with
      fsSearch := fs1
      fsGraph := fs2 }

/-- Model of `loadFromCache` (part_002 lines 133-155): if `search.json`
exists, load it into the engine and, when `graph.json` exists too, load the
graph; otherwise do nothing. -/
def loadFromCache (st : RAGState) (tag : List Char) : RAGState :=
  match alFind st.fsSearch tag with
  | none => st
  | some cs =>
    let st1 := { st with eng := engLoad st.eng tag cs }
    match alFind st.fsGraph tag with
    | some data => { st1 with graphs := alSet st1.graphs tag (gLoad data) }
    | none => st1

/-- Model of `RAGProvider.ingest` (part_002 lines 166-338) after the
external LLM extraction and embedding calls, which are abstracted as the
already-parsed graph inputs and the already-embedded chunks: the graph is
built (and its map entry created) first; with no chunks the method returns
before touching the engine or the cache; otherwise chunks are added and the
cache written. -/
def provIngest (st : RAGState) (tag : List Char) (ents : List EntCall) (rels : List GREdge)
    (embedded : List EChunk) : RAGState :=
  let g0 := (alFind st.graphs tag).getD graphEmptyM
  let g1 := ents.foldl (fun g c => addEntity g c.name c.ty c.summary c.sid) g0
  let g2 := rels.foldl addRelationship g1
  let st1 := { st with graphs := alSet st.graphs tag g2 }
  if embedded.isEmpty then st1
  else saveToCache { st1 with eng := engAddChunks st1.eng tag embedded } tag

/-- Model of `RAGProvider.clear` (part_002 lines 435-440): clear the engine
container and drop the graph.  The cache files are NOT touched. -/
def provClear (st : RAGState) (tag : List Char) : RAGState :=
  { st with
      eng := engClear st.eng tag
      graphs := alRemove st.graphs tag }

/-- A combined search output item (`_type` union of part_002 lines 391-426). -/
inductive ProvResult where
  | chunk (res : SearchResult)
  | entity (name ty summary : List Char)
  | rel (source target relation : List Char) (date : Option (List Char))
deriving DecidableEq

/-- Model of `RAGProvider.search` (part_002 lines 352-433) with the query
embedding and the reranker LLM abstracted (`rr` is applied exactly when the
hybrid result count exceeds the limit): reload the cache when the engine is
empty for the tag, hybrid-search with overfetch `max(limit, 40)`, rerank if
needed, then append graph pseudo-results. -/
def provSearch (st : RAGState) (tag query : List Char) (limit : Nat)
    (rr : List SearchResult → Nat → List SearchResult) : List ProvResult × RAGState :=
  let st1 := if engHasData st.eng tag then st else loadFromCache st tag
  let hybrid := engSearch st1.eng tag (max limit 40)
  let finalChunks := if limit < hybrid.length then rr hybrid limit else hybrid
  let base := finalChunks.map ProvResult.chunk
  match alFind st1.graphs tag with
  | some g =>
    if 0 < g.nodes.length then
      let qents := findEntitiesInQuery g query
      if qents.isEmpty then (base, st1)
      else
        let ctx := getContext g qents 2
        (base ++ ctx.1.map (fun e => ProvResult.entity e.name e.type e.summary) ++
          ctx.2.map (fun e => ProvResult.rel e.source e.target e.relation e.date), st1)
    else (base, st1)
  | none => (base, st1)

/-- The single chunk produced by the failing ingest. -/
def c1chunk : EChunk :=
  ⟨cl (r"t_s1_0"), cl (r"hello world"), cl (r"s1"), 0, [1], some (cl (r"2024-01-01")), none⟩

/-- C1 (code_bug): after ingesting one chunk into container `t` and then
`clear("t")`, the in-memory engine is empty, but the `search.json` cache
file written by the ingest is still on disk — `clear` never deletes it —
and the next `search` reloads it, returning the supposedly cleared chunk
instead of the empty list. -/
theorem c1_clear_not_destructive :
    engHasData (provClear (provIngest ragInit (cl (r"t")) [] [] [c1chunk]) (cl (r"t"))).eng
        (cl (r"t")) = false ∧
      alFind (provClear (provIngest ragInit (cl (r"t")) [] [] [c1chunk]) (cl (r"t"))).fsSearch
        (cl (r"t")) = some [c1chunk] ∧
      (provSearch (provClear (provIngest ragInit (cl (r"t")) [] [] [c1chunk]) (cl (r"t")))
          (cl (r"t")) (cl (r"q")) 10 (fun rs k => rs.take k)).1 =
        [ProvResult.chunk (chunkResult c1chunk)] ∧
      [ProvResult.chunk (chunkResult c1chunk)] ≠ ([] : List ProvResult) := by
  decide
